import Mathlib

/-!
Verification development for the `tt` time tracker (module `timetracker/objects.py`).

The Python module is shallowly embedded below.  Text (file contents, fields,
activities) is represented as `List Char`; machine integers of Python are
arbitrary-precision, so timestamps are `Int`.  Fallible Python code (raising
exceptions) is embedded with `Except Err`.  File-system contents relevant to an
operation are passed explicitly: `Option (List Char)` is the content of a path
(`none` = the path does not exist).

Library calls of the Python standard library (`csv.writer`, `csv.reader`,
`csv.Sniffer.sniff`, `int`, `datetime.fromtimestamp/strftime/strptime`) are
embedded by faithful executable models of the stdlib behaviour on the inputs
the theorems range over; each model carries a comment stating its scope.
-/

namespace TT

/-- Text is modelled as a list of characters. -/
abbrev Str := List Char

/-- Error kinds raised by the embedded operations (Python exception classes:
`FileNotFoundError`, `csv.Error` from the sniffer, `csv.Error` from the writer
when a quote cannot be escaped, `IndexError` on an empty row, `ValueError` from
`int()` or `strptime`, `ValueError`/`OverflowError` from `fromtimestamp`). -/
inductive Err where
  | fileNotFound
  | sniffFailed
  | sniffUnmodeled
  | needEscape
  | emptyRow
  | malformedRow
  | tsRange
  | strptimeFailed
  deriving DecidableEq, Repr

deriving instance DecidableEq for Except

/-- CSV dialect, from class `Dialect(csv.Dialect)` in `objects.py`: the fields
that influence the embedded reader/writer (delimiter, quotechar, doublequote,
lineterminator); `quoting` is always `QUOTE_MINIMAL` (0) in the source. -/
structure Dialect where
  delimiter : Char
  quotechar : Char
  doublequote : Bool
  lineterminator : Str
  deriving DecidableEq, Repr

/-- The default dialect of `objects.py`: tab delimiter, double-quote quoting,
`lineterminator = os.linesep` (the program is modelled on Linux: `"\n"`). -/
def defaultDialect : Dialect :=
  { delimiter := '\t', quotechar := '"', doublequote := true, lineterminator := ['\n'] }

/-- The dialect produced by `csv.Sniffer().sniff` on a quote-free tab-delimited
sample: delimiter `'\t'`, quotechar `'"'`, `doublequote = False` (no doubled
quotes seen in the sample) and the sniffer's hard-coded `lineterminator '\r\n'`. -/
def sniffedTab : Dialect :=
  { delimiter := '\t', quotechar := '"', doublequote := false, lineterminator := ['\r', '\n'] }

/-- One row of `TrackingFile.data` after a successful `read`/`load`: an integer
timestamp followed by the remaining string fields (`[int(row[0]), *row[1:]]`). -/
structure Entry where
  ts : Int
  rest : List Str
  deriving DecidableEq, Repr

/-- The mutable state of a `TrackingFile` instance (`__init__` in `objects.py`):
`file_name`, `data` (initially empty), `dialect` (initially `None`) and
`loaded` (initially `False`). -/
structure TFState where
  fileName : Str
  data : List Entry
  dialect : Option Dialect
  loaded : Bool
  deriving DecidableEq, Repr

/-- Constructor `TrackingFile(file_name)`. -/
def TFState.init (fileName : Str) : TFState :=
  { fileName := fileName, data := [], dialect := none, loaded := false }

/-! ## Decimal integers: Python `str(int)` and `int(str)` -/

/-- Decimal digit character of a value below ten. -/
def digitChar (n : Nat) : Char := Char.ofNat (48 + n)

/-- Little-endian decimal digits, with an explicit recursion budget so the
definition is structural (`fuel ≥ n` always suffices). -/
def natDigitsRevAux : Nat → Nat → List Char
  | 0, n => [digitChar n]
  | fuel + 1, n =>
      if n < 10 then [digitChar n]
      else digitChar (n % 10) :: natDigitsRevAux fuel (n / 10)

/-- Little-endian decimal digits of a natural number. -/
def natDigitsRev (n : Nat) : List Char := natDigitsRevAux n n

/-- Decimal rendering of a natural number, most significant digit first. -/
def natDigits (n : Nat) : Str := (natDigitsRev n).reverse

/-- Python `str` applied to an `int`: optional minus sign and decimal digits. -/
def pyStrOfInt (i : Int) : Str :=
  if i < 0 then '-' :: natDigits i.natAbs else natDigits i.toNat

/-- Numeric value of a decimal digit character, `10` when not a digit. -/
def charDigit (c : Char) : Nat :=
  if 48 ≤ c.toNat ∧ c.toNat ≤ 57 then c.toNat - 48 else 10

/-- Is the character a decimal digit? -/
def isDigitChar (c : Char) : Bool := decide (48 ≤ c.toNat ∧ c.toNat ≤ 57)

/-- Big-endian value of a list of digit characters. -/
def digitsVal (ds : Str) : Nat := ds.foldl (fun acc c => 10 * acc + charDigit c) 0

/-- Parser for the tail of the digit body of a Python integer literal: digits
in which a single underscore may stand between two digits (`int('1_0') = 10`,
`int('1__0')` and `int('1_')` fail).  `afterUnd` records that the previous
character was an underscore, making a digit mandatory. -/
def pyDigitsAux : Str → Bool → Nat → Option Nat
  | [], afterUnd, acc => if afterUnd then none else some acc
  | c :: cs, afterUnd, acc =>
      if isDigitChar c then pyDigitsAux cs false (10 * acc + charDigit c)
      else if c = '_' ∧ ¬ afterUnd then pyDigitsAux cs true acc
      else none

/-- Digit body of a Python integer literal: a leading digit then `pyDigitsAux`. -/
def pyBody : Str → Option Nat
  | [] => none
  | c :: cs => if isDigitChar c then pyDigitsAux cs false (charDigit c) else none

/-- Interpreting an accumulator-seeded digit fold. -/
def vfold (acc : Nat) (ds : Str) : Nat := ds.foldl (fun a c => 10 * a + charDigit c) acc

/-- Surrounding-whitespace stripping performed by Python `int(s)` (spaces as
representative whitespace). -/
def pyStrip (s : Str) : Str :=
  ((s.dropWhile (fun c => c = ' ')).reverse.dropWhile (fun c => c = ' ')).reverse

/-- Python `int(s)`: optional surrounding whitespace, optional sign, digit body
with underscores allowed between digits; `none` models `ValueError`. -/
def pyInt (s : Str) : Option Int :=
  match pyStrip s with
  | [] => none
  | c :: cs =>
      if c = '-' then (pyBody cs).map (fun n => -(n : Int))
      else if c = '+' then (pyBody cs).map (fun n => (n : Int))
      else (pyBody (c :: cs)).map (fun n => (n : Int))

/-! ## The CSV writer (`csv.writer` with `quoting = QUOTE_MINIMAL`) -/

/-- Does a field character force quoting under `QUOTE_MINIMAL`?  Per the csv
module documentation: the delimiter, the quotechar, or any character of the
lineterminator. -/
def needsQuote (d : Dialect) (c : Char) : Bool :=
  c = d.delimiter || c = d.quotechar || d.lineterminator.contains c

/-- Serialise one field: quoted (with doubled quotechars) when it contains a
special character; `csv.Error` when quoting is needed, `doublequote` is off and
no `escapechar` is configured (the source configures none). -/
def writeField (d : Dialect) (f : Str) : Except Err Str :=
  if f.any (needsQuote d) then
    if d.doublequote then
      .ok (d.quotechar :: (f.flatMap (fun c => if c = d.quotechar then [c, c] else [c])) ++ [d.quotechar])
    else
      .error .needEscape
  else
    .ok f

/-- Serialise one row: fields joined by the delimiter, then the lineterminator
(what `csv.writer.writerow` emits). -/
def writeRow (d : Dialect) (fields : List Str) : Except Err Str := do
  let fs ← fields.mapM (writeField d)
  return (fs.intersperse [d.delimiter]).flatten ++ d.lineterminator

/-- String fields of an in-memory entry as `csv.writer` stringifies them:
`str()` of the integer timestamp followed by the remaining string fields. -/
def entryFields (e : Entry) : List Str := pyStrOfInt e.ts :: e.rest

/-- Serialise `data` (what `csv.writer.writerows(self.data)` emits). -/
def writerows (d : Dialect) (rows : List Entry) : Except Err Str := do
  let rs ← rows.mapM (fun e => writeRow d (entryFields e))
  return rs.flatten

/-! ## The CSV reader (`csv.reader`)

The reader recognises `\r\n`, `\r` or `\n` as end of record regardless of the
dialect's lineterminator (documented csv-module behaviour), splits fields on
the dialect's delimiter, and interprets quoted fields (a doubled quotechar
inside quotes stands for one quotechar).  A blank line yields the empty record
`[]`.  Input not ending in a line terminator still yields its final record. -/

/-- After a carriage return, a directly following line feed belongs to the same
line terminator and is consumed with it. -/
def dropLF (cs : List Char) : List Char :=
  match cs with
  | '\n' :: cs' => cs'
  | _ => cs

/-- Core state machine of the reader.  `inQ` says whether the scan is inside a
quoted field, `cur` is the field being accumulated, `flds` the completed fields
of the current record, `saw` whether the current record has consumed any
character (distinguishing a blank line, which yields `[]`, from a record with
one empty field). -/
def parseAuxF (delim quote : Char) : Nat → List Char → Bool → Str → List Str → Bool → List (List Str)
  | 0, _, _, _, _, _ => []
  | _ + 1, [], true, cur, flds, _ => [flds ++ [cur]]
  | _ + 1, [], false, cur, flds, saw =>
      if saw then [flds ++ [cur]] else []
  | fuel + 1, [c], true, cur, flds, saw =>
      if c = quote then parseAuxF delim quote fuel [] false cur flds true
      else parseAuxF delim quote fuel [] true (cur ++ [c]) flds saw
  | fuel + 1, c :: c' :: cs, true, cur, flds, saw =>
      if c = quote then
        if c' = quote then parseAuxF delim quote fuel cs true (cur ++ [quote]) flds saw
        else parseAuxF delim quote fuel (c' :: cs) false cur flds true
      else parseAuxF delim quote fuel (c' :: cs) true (cur ++ [c]) flds saw
  | fuel + 1, c :: cs, false, cur, flds, saw =>
      if c = quote then
        parseAuxF delim quote fuel cs true cur flds true
      else if c = delim then
        parseAuxF delim quote fuel cs false [] (flds ++ [cur]) true
      else if c = '\r' then
        (if saw then flds ++ [cur] else []) :: parseAuxF delim quote fuel (dropLF cs) false [] [] false
      else if c = '\n' then
        (if saw then flds ++ [cur] else []) :: parseAuxF delim quote fuel cs false [] [] false
      else
        parseAuxF delim quote fuel cs false (cur ++ [c]) flds true

/-- The state machine with the recursion budget instantiated: every step of the
scan consumes at least one input character, so `cs.length + 1` steps always
suffice to drain `cs` and emit the final record. -/
def parseAux (delim quote : Char) (cs : List Char) (inQ : Bool) (cur : Str)
    (flds : List Str) (saw : Bool) : List (List Str) :=
  parseAuxF delim quote (cs.length + 1) cs inQ cur flds saw

/-- All records of a file's contents (`list(csv.reader(f, dialect))`). -/
def parseRecords (d : Dialect) (content : Str) : List (List Str) :=
  parseAux d.delimiter d.quotechar content false [] [] false

/-! ## Dialect detection (`csv.Sniffer().sniff`)

Model of the stdlib sniffer, restricted to the samples this development ranges
over: samples free of quote characters (`_guess_quote_and_delimiter` probes
both the double and the single quote, so both are excluded) and free of
commas.  On such samples no quoting is detected and `_guess_delimiter` splits
the sample on `'\n'` (Python `str.split`, so a `'\r'` of a CRLF terminator
stays on its line), drops empty lines, and looks for a character whose
per-line frequency is consistent.  When the tab occurs the same positive
number of times on every line it is such a character at full consistency, so
it ends up among the candidate delimiters, and it is then selected: either it
is the only candidate, or the preference order `',' '\t' ';' ' ' ':'` applies
and, the sample being comma-free, picks the tab.  The sniffed dialect carries
the hard-coded `lineterminator '\r\n'` and, the sample being quote-free,
`doublequote` off; its `skipinitialspace` is `True` exactly when every tab of
the first line is followed by a space, so the model additionally demands that
no tab of the first line is followed by a space — then `skipinitialspace` is
off and the stdlib reader strips nothing, as the embedded reader presumes.
On an empty sample the sniffer raises `csv.Error` (no line yields any
candidate).  Every other sample — an inconsistent per-line tab count, no tab
at all, or a first line pairing each tab with a space, on which the stdlib
may raise, pick another delimiter or dialect flag, or settle on an arbitrary
consistent character — is outside the model and maps to the distinguished
error `sniffUnmodeled`, which no theorem relies upon. -/

/-- Python `sample.split('\n')`. -/
def splitNl : Str → List Str
  | [] => [[]]
  | c :: cs =>
      if c = '\n' then [] :: splitNl cs
      else match splitNl cs with
        | l :: ls => (c :: l) :: ls
        | [] => [[c]]

/-- The lines `_guess_delimiter` scans: the sample split on `'\n'`, empty
lines dropped (`filter(None, data.split('\n'))`). -/
def sniffLines (sample : Str) : List Str :=
  (splitNl sample).filter (fun l => !l.isEmpty)

/-- Does the text contain a tab directly followed by a space?  The sniffer
sets `skipinitialspace = (line0.count(delim) == line0.count(delim + ' '))`;
when the first line has no tab-space bigram at all this is `False`, and the
reader then strips nothing — which is what the embedded reader presumes. -/
def hasTabSpace : Str → Bool
  | c :: c' :: cs => if c = '\t' ∧ c' = ' ' then true else hasTabSpace (c' :: cs)
  | _ => false

/-- Does the field start with a space character? -/
def startsWithSpaceB : Str → Bool
  | c :: _ => c = ' '
  | [] => false

def sniff (sample : Str) : Except Err Dialect :=
  if sample = [] then .error .sniffFailed
  else if sample.contains '"' || sample.contains '\'' || sample.contains ',' then
    .error .sniffUnmodeled
  else
    let ls := sniffLines sample
    let n := (ls.headI).count '\t'
    if 0 < n ∧ (∀ l ∈ ls, l.count '\t' = n) ∧ hasTabSpace ls.headI = false then
      .ok sniffedTab
    else .error .sniffUnmodeled

/-! ## Plainness

The round-trip theorems range over fields made of plain characters: characters
that are not the tab delimiter, not a double or single quote (the stdlib
sniffer probes both `\x22` and `'` as candidate quote characters, and a
detected quote changes the parse), not part of a line terminator (so the
writer emits them verbatim and the reader returns them verbatim), and not a
comma (so the stdlib sniffer's preference for the comma delimiter cannot
fire, keeping the sniffer model faithful). -/

/-- A character the csv layer transports verbatim. -/
def plainChar (c : Char) : Bool :=
  !(c = '\t' || c = '"' || c = '\'' || c = ',' || c = '\r' || c = '\n')

/-- A field of plain characters. -/
def plainField (f : Str) : Bool := f.all plainChar

/-- The concatenation of fields separated by the tab delimiter, as the writer
lays out one record before the line terminator. -/
def joinFields (fs : List Str) : Str := (fs.intersperse ['\t']).flatten

/-! ## Civil calendar arithmetic (`datetime`)

Conversion between day counts and proleptic Gregorian dates, on day numbers
shifted by 719468 so that the computation stays in `Nat` (day 719468 is
1970-01-01; day 306 is 0001-01-01, the lower bound of `datetime`). -/

/-- Civil date `(year, month, day)` of shifted day number `z` (day `z - 719468`
relative to the epoch).  The 400-year era is cascaded into centuries, 4-year
blocks and years (the last century of an era and the last year of a 4-year
block are one day longer, whence the two clamps), then the March-based
day-of-year is split into month and day. -/
def civilFromDaysN (z : Nat) : Nat × Nat × Nat :=
  let era := z / 146097
  let doe := z % 146097
  let c := min (doe / 36524) 3
  let doc := doe - 36524 * c
  let q := doc / 1461
  let doq := doc - 1461 * q
  let y1 := min (doq / 365) 3
  let doy := doq - 365 * y1
  let yoe := 100 * c + 4 * q + y1
  let mp := (5 * doy + 2) / 153
  let d := doy - (153 * mp + 2) / 5 + 1
  let m := if mp < 10 then mp + 3 else mp - 9
  (if m ≤ 2 then yoe + era * 400 + 1 else yoe + era * 400, m, d)

/-- Shifted day number of a civil date (inverse of `civilFromDaysN` on valid
dates of year at least 1). -/
def daysFromCivilN (y m d : Nat) : Nat :=
  let yAdj := if m ≤ 2 then y - 1 else y
  let era := yAdj / 400
  let yoe := yAdj % 400
  let mp := if 2 < m then m - 3 else m + 9
  let doy := (153 * mp + 2) / 5 + d - 1
  let doe := yoe * 365 + yoe / 4 - yoe / 100 + doy
  era * 146097 + doe

/-- Broken-down timezone-aware datetime with whole-second precision: what
`datetime.fromtimestamp(ts, tz)` yields for an integer `ts` and a fixed-offset
`tz` (microseconds are zero and omitted). -/
structure DT where
  year : Nat
  month : Nat
  day : Nat
  hour : Nat
  minute : Nat
  second : Nat
  off : Int
  deriving DecidableEq, Repr

/-- Model of `datetime.fromtimestamp(ts, tz)` for a fixed offset of `off`
seconds: split `ts + off` into days and seconds of day, convert the days to a
civil date, and fail (Python `ValueError`/`OverflowError`) when the year falls
outside `datetime`'s range 1..9999. -/
def fromtimestamp (ts off : Int) : Except Err DT :=
  let loc : Int := ts + off
  let q : Int := loc / 86400
  let r : Int := loc % 86400
  if 0 ≤ q + 719468 then
    let z : Nat := (q + 719468).toNat
    let c := civilFromDaysN z
    if c.1 < 1 ∨ 9999 < c.1 then .error .tsRange
    else
      .ok { year := c.1, month := c.2.1, day := c.2.2,
            hour := r.toNat / 3600, minute := r.toNat % 3600 / 60, second := r.toNat % 60,
            off := off }
  else .error .tsRange

/-- Epoch second of a broken-down aware datetime: what `dt.timestamp()` returns
(exactly an integer here, since seconds are whole). -/
def epochOfDT (dt : DT) : Int :=
  ((daysFromCivilN dt.year dt.month dt.day : Int) - 719468) * 86400
    + dt.hour * 3600 + dt.minute * 60 + dt.second - dt.off

/-! ## strftime / strptime

The `ts_format` strings the program passes to `strftime`/`strptime` are
embedded as token lists: a literal character, or one of the directives the
development needs (`%Y %m %d %H %M %S %z`; `%F` and `%T` are compositions of
these).  Numeric directives render zero-padded (`%Y` to four digits, the rest
to two); `%z` renders `±HHMM` for whole-minute offsets.  The parser mirrors
Python `_strptime`: `%Y` matches exactly four digits, the two-digit directives
match one or two digits greedily, `%z` matches a sign, four digits, and
greedily two more digits (a seconds part) when present. -/

inductive FTok where
  | lit (c : Char)
  | dirY
  | dirm
  | dird
  | dirH
  | dirM
  | dirS
  | dirz
  deriving DecidableEq, Repr

/-- A format string is a list of tokens. -/
abbrev Fmt := List FTok

/-- The module constant `DEFAULT_HUMAN_DATETIME = '%Y-%m-%d %H:%M:%S %z'`. -/
def defaultHumanFmt : Fmt :=
  [.dirY, .lit '-', .dirm, .lit '-', .dird, .lit ' ',
   .dirH, .lit ':', .dirM, .lit ':', .dirS, .lit ' ', .dirz]

/-- The format `'%F %T'` (equivalently `'%Y-%m-%d %H:%M:%S'`) used by the tests
and the class docstring. -/
def fmtFT : Fmt :=
  [.dirY, .lit '-', .dirm, .lit '-', .dird, .lit ' ', .dirH, .lit ':', .dirM, .lit ':', .dirS]

/-- Zero-pad a decimal rendering to `w` characters. -/
def padNum (w n : Nat) : Str :=
  List.replicate (w - (natDigits n).length) '0' ++ natDigits n

/-- Render one directive against a broken-down datetime. -/
def renderTok (dt : DT) : FTok → Str
  | .lit c => [c]
  | .dirY => padNum 4 dt.year
  | .dirm => padNum 2 dt.month
  | .dird => padNum 2 dt.day
  | .dirH => padNum 2 dt.hour
  | .dirM => padNum 2 dt.minute
  | .dirS => padNum 2 dt.second
  | .dirz =>
      (if dt.off < 0 then '-' else '+')
        :: (padNum 2 (dt.off.natAbs / 3600) ++ padNum 2 (dt.off.natAbs % 3600 / 60))

/-- Model of `dt.strftime(fmt)` over the token language. -/
def strftime (dt : DT) (fmt : Fmt) : Str :=
  (fmt.map (renderTok dt)).flatten

/-- Fields accumulated by the strptime regex match (Python `_strptime` fills a
dictionary of matched groups; unmatched directives keep defaults 1900-01-01
00:00:00, no offset). -/
@[ext]
structure PFields where
  year : Nat
  month : Nat
  day : Nat
  hour : Nat
  minute : Nat
  second : Nat
  off : Option Int
  deriving DecidableEq, Repr

/-- Default field values of `_strptime`. -/
def PFields.dflt : PFields :=
  { year := 1900, month := 1, day := 1, hour := 0, minute := 0, second := 0, off := none }

/-- Read exactly `w` digit characters. -/
def takeDigits : Nat → Str → Option (Nat × Str)
  | 0, cs => some (0, cs)
  | w + 1, c :: cs =>
      if isDigitChar c then
        (takeDigits w cs).map (fun p => (charDigit c * 10 ^ w + p.1, p.2))
      else none
  | _ + 1, [] => none

/-- Read one or two digit characters, greedily (the regex `\d\x7b1,2\x7d`). -/
def take12Digits : Str → Option (Nat × Str)
  | c :: c' :: cs =>
      if isDigitChar c then
        if isDigitChar c' then some (charDigit c * 10 + charDigit c', cs)
        else some (charDigit c, c' :: cs)
      else none
  | [c] => if isDigitChar c then some (charDigit c, []) else none
  | [] => none

/-- Parse a `%z` body: sign, two digits of hours, two digits of minutes, then
greedily two more digits of seconds when the next two characters are digits. -/
def takeZ : Str → Option (Int × Str)
  | s :: cs =>
      if s = '+' ∨ s = '-' then
        match takeDigits 2 cs with
        | some (hh, cs1) =>
            match takeDigits 2 cs1 with
            | some (mm, cs2) =>
                let sgn : Int := if s = '-' then -1 else 1
                match cs2 with
                | a :: b :: cs3 =>
                    if isDigitChar a ∧ isDigitChar b then
                      some (sgn * (hh * 3600 + mm * 60 + (charDigit a * 10 + charDigit b)),
                        cs3)
                    else some (sgn * (hh * 3600 + mm * 60), cs2)
                | _ => some (sgn * (hh * 3600 + mm * 60), cs2)
            | none => none
        | none => none
      else none
  | [] => none

/-- Match the token list against the input, accumulating fields. -/
def parseToks : Fmt → Str → PFields → Option (PFields × Str)
  | [], cs, acc => some (acc, cs)
  | .lit c :: fmt, c' :: cs, acc => if c = c' then parseToks fmt cs acc else none
  | .lit _ :: _, [], _ => none
  | .dirY :: fmt, cs, acc =>
      (takeDigits 4 cs).bind (fun p => parseToks fmt p.2 { acc with year := p.1 })
  | .dirm :: fmt, cs, acc =>
      (take12Digits cs).bind (fun p => parseToks fmt p.2 { acc with month := p.1 })
  | .dird :: fmt, cs, acc =>
      (take12Digits cs).bind (fun p => parseToks fmt p.2 { acc with day := p.1 })
  | .dirH :: fmt, cs, acc =>
      (take12Digits cs).bind (fun p => parseToks fmt p.2 { acc with hour := p.1 })
  | .dirM :: fmt, cs, acc =>
      (take12Digits cs).bind (fun p => parseToks fmt p.2 { acc with minute := p.1 })
  | .dirS :: fmt, cs, acc =>
      (take12Digits cs).bind (fun p => parseToks fmt p.2 { acc with second := p.1 })
  | .dirz :: fmt, cs, acc =>
      (takeZ cs).bind (fun p => parseToks fmt p.2 { acc with off := some p.1 })

/-- Validation performed by the `datetime` constructor inside `strptime`
(bounds only; exact day-of-month limits are not modelled, which only widens
the parser's acceptance beyond inputs this development evaluates it on). -/
def validPFields (f : PFields) : Bool :=
  decide (1 ≤ f.year ∧ f.year ≤ 9999 ∧ 1 ≤ f.month ∧ f.month ≤ 12 ∧ 1 ≤ f.day ∧ f.day ≤ 31
    ∧ f.hour ≤ 23 ∧ f.minute ≤ 59 ∧ f.second ≤ 59)

/-- Model of `datetime.strptime(s, fmt)`: the whole input must be consumed
(`_strptime` rejects unconverted data) and the fields must form a valid
datetime; the result keeps the matched fields. -/
def strptime (fmt : Fmt) (s : Str) : Except Err PFields :=
  match parseToks fmt s PFields.dflt with
  | some (f, []) => if validPFields f then .ok f else .error .strptimeFailed
  | _ => .error .strptimeFailed

/-- Epoch second of a parsed datetime, as `load` computes it with
`int(datetime.strptime(row[0], ts_format).timestamp())`: an aware datetime
(offset parsed from `%z`) converts exactly; a naive one is interpreted in the
system timezone, passed here as `sysOff`. -/
def epochOfPFields (sysOff : Int) (f : PFields) : Int :=
  ((daysFromCivilN f.year f.month f.day : Int) - 719468) * 86400
    + f.hour * 3600 + f.minute * 60 + f.second - f.off.getD sysOff

namespace TFState

/-- Convert a raw record to an entry, as `read`'s comprehension
`[int(row[0]), *row[1:]]` does: `IndexError` on an empty record, `ValueError`
when the leading field is not an integer literal. -/
def entryOfRecord (row : List Str) : Except Err Entry :=
  match row with
  | [] => .error .emptyRow
  | f :: rest =>
      match pyInt f with
      | some i => .ok { ts := i, rest := rest }
      | none => .error .malformedRow

/-- Method `TrackingFile.read`: open the file (`FileNotFoundError` when it does
not exist), sniff a dialect from the first 1024 bytes when none is set, parse
all records with that dialect, convert leading fields to integers, set
`loaded`. -/
def read (st : TFState) (file : Option Str) : Except Err TFState := do
  match file with
  | none => .error .fileNotFound
  | some content =>
      let d ← match st.dialect with
        | some d => pure d
        | none => sniff (content.take 1024)
      let rows := parseRecords d content
      let data ← rows.mapM entryOfRecord
      return { st with dialect := some d, data := data, loaded := true }

/-- Dialect resolution step of `TrackingFile.write`: the stored dialect when
set; otherwise sniffed from the existing file, or the default dialect when the
file does not exist. -/
def writeDialect (st : TFState) (file : Option Str) : Except Err Dialect :=
  match st.dialect, file with
  | some d, _ => .ok d
  | none, some content => sniff (content.take 1024)
  | none, none => .ok defaultDialect

/-- Method `TrackingFile.write`: resolve a dialect, serialise `data`, then
either overwrite (`loaded`) or append to the file; in append mode `data` is
cleared afterwards; an unset dialect is cached.  Returns the updated instance
state and the new file contents. -/
def write (st : TFState) (file : Option Str) : Except Err (TFState × Str) := do
  let d ← writeDialect st file
  let rendered ← writerows d st.data
  let newContent := if st.loaded then rendered else (file.getD []) ++ rendered
  let st' := { st with
    data := if st.loaded then st.data else [],
    dialect := some (st.dialect.getD d) }
  return (st', newContent)

/-- Generator `TrackingFile.format_data`: each row with its timestamp rendered
by `strftime` in the given timezone. -/
def format_data (st : TFState) (fmt : Fmt) (off : Int) : Except Err (List (List Str)) :=
  st.data.mapM (fun e => do
    let dt ← fromtimestamp e.ts off
    return strftime dt fmt :: e.rest)

/-- Method `TrackingFile.format`: serialise the formatted rows with the stored
dialect, or the default dialect when none is set; a missing timezone defaults
to UTC. -/
def format (st : TFState) (fmt : Fmt) (tz : Option Int) : Except Err Str := do
  let d := st.dialect.getD defaultDialect
  let off := tz.getD 0
  let rows ← st.format_data fmt off
  let rs ← rows.mapM (writeRow d)
  return rs.flatten

/-- Method `TrackingFile.load`: require the path to exist, sniff a dialect from
it (kept local, never stored), parse its records, convert each leading field
with `strptime` and `timestamp()`, and replace `data`; nothing else of the
instance changes. -/
def load (st : TFState) (file : Option Str) (fmt : Fmt) (sysOff : Int) :
    Except Err TFState := do
  match file with
  | none => .error .fileNotFound
  | some content =>
      let d ← sniff (content.take 1024)
      let rows := parseRecords d content
      let data ← rows.mapM (fun row =>
        match row with
        | [] => .error .emptyRow
        | f :: rest => do
            let pf ← strptime fmt f
            return { ts := epochOfPFields sysOff pf, rest := rest })
      return { st with data := data }

/-- Method `TrackingFile.append` with an explicit timestamp argument. -/
def append (st : TFState) (activity : Str) (timestamp : Int) : TFState :=
  { st with data := st.data ++ [{ ts := timestamp, rest := [activity] }] }

/-- Method `TrackingFile.append` with the timestamp argument omitted.  The
Python definition is `def append(self, activity, timestamp=round(time.time()))`:
the default expression is evaluated once, when the module is imported, so every
defaulted call reuses `importTime`, the clock value at import. -/
def appendDefault (importTime : Int) (st : TFState) (activity : Str) : TFState :=
  st.append activity importTime

/-- Property `TrackingFile.timestamp`. -/
def timestamps (st : TFState) : List Int := st.data.map Entry.ts

/-- Property `TrackingFile.activity`. -/
def activities (st : TFState) : List Str := st.data.map (fun e => (e.rest.headD []))

end TFState

/-- The `with TrackingFile(...) as tf:` pattern: `__enter__` performs `read()`
and returns the instance; the body then runs, mutating the instance and
possibly raising (modelled as a total function returning the mutated state and
an optional exception); `__exit__` performs `write()` unconditionally, after
which the body's exception, if any, propagates.  Returns the final contents of
the tracking file and the propagated body exception. -/
def runWith (file : Option Str) (body : TFState → TFState × Option Err)
    (st : TFState) : Except Err (Str × Option Err) := do
  let st0 ← st.read file
  let (st1, bodyErr) := body st0
  let (_, newContent) ← st1.write file
  return (newContent, bodyErr)

/-- Function `file_finder(order)` of `objects.py`: try paths in order, return
the first for which `os.path.exists` holds, raise `FileNotFoundError` when the
list is exhausted (or empty).  The file system enters only through the boolean
existence predicate: the function validates no content. -/
def file_finder (fsExists : Str → Bool) : List Str → Except Err Str
  | [] => .error .fileNotFound
  | p :: rest => if fsExists p then .ok p else file_finder fsExists rest

/-! ## Lemmas: decimal integers round-trip through `str` and `int` -/

theorem charDigit_digitChar : ∀ k, k < 10 → charDigit (digitChar k) = k := by decide

theorem isDigitChar_digitChar : ∀ k, k < 10 → isDigitChar (digitChar k) = true := by decide

theorem natDigitsRevAux_lt (n : Nat) (h : n < 10) (fuel : Nat) :
    natDigitsRevAux fuel n = [digitChar n] := by
  cases fuel with
  | zero => rfl
  | succ fuel => simp [natDigitsRevAux, h]

theorem natDigitsRevAux_congr : ∀ (f1 : Nat) (n : Nat) (f2 : Nat), n ≤ f1 → n ≤ f2 →
    natDigitsRevAux f1 n = natDigitsRevAux f2 n := by
  intro f1
  induction f1 with
  | zero =>
    intro n f2 h1 _
    have hn : n = 0 := by omega
    subst hn
    rw [natDigitsRevAux_lt 0 (by omega) 0, natDigitsRevAux_lt 0 (by omega) f2]
  | succ f1 ih =>
    intro n f2 h1 h2
    by_cases h : n < 10
    · rw [natDigitsRevAux_lt n h, natDigitsRevAux_lt n h]
    · cases f2 with
      | zero => omega
      | succ f2 =>
        simp only [natDigitsRevAux, if_neg h]
        exact congrArg _ (ih (n / 10) f2 (by omega) (by omega))

theorem natDigits_lt (n : Nat) (h : n < 10) : natDigits n = [digitChar n] := by
  unfold natDigits natDigitsRev
  rw [natDigitsRevAux_lt n h]
  rfl

theorem natDigits_ge (n : Nat) (h : 10 ≤ n) :
    natDigits n = natDigits (n / 10) ++ [digitChar (n % 10)] := by
  obtain ⟨m, hm⟩ : ∃ m, n = m + 1 := ⟨n - 1, by omega⟩
  unfold natDigits natDigitsRev
  conv_lhs => rw [hm]
  rw [show natDigitsRevAux (m + 1) (m + 1)
      = digitChar ((m + 1) % 10) :: natDigitsRevAux m ((m + 1) / 10) by
    simp [natDigitsRevAux, show ¬(m + 1 < 10) by omega]]
  rw [natDigitsRevAux_congr m ((m + 1) / 10) ((m + 1) / 10) (by omega) (by omega), ← hm]
  simp

theorem natDigits_digits (n : Nat) : ∀ c ∈ natDigits n, isDigitChar c = true := by
  induction n using Nat.strong_induction_on with
  | _ n ih =>
    by_cases h : n < 10
    · rw [natDigits_lt n h]
      intro c hc
      simp only [List.mem_singleton] at hc
      subst hc
      exact isDigitChar_digitChar n h
    · rw [natDigits_ge n (by omega)]
      intro c hc
      rcases List.mem_append.mp hc with h' | h'
      · exact ih (n / 10) (by omega) c h'
      · simp only [List.mem_singleton] at h'
        subst h'
        exact isDigitChar_digitChar _ (Nat.mod_lt _ (by omega))

theorem natDigits_ne_nil (n : Nat) : natDigits n ≠ [] := by
  by_cases h : n < 10
  · rw [natDigits_lt n h]
    simp
  · rw [natDigits_ge n (by omega)]
    simp

theorem vfold_natDigits (n : Nat) :
    ∀ acc, vfold acc (natDigits n) = acc * 10 ^ (natDigits n).length + n := by
  induction n using Nat.strong_induction_on with
  | _ n ih =>
    intro acc
    by_cases h : n < 10
    · rw [natDigits_lt n h]
      simp [vfold, charDigit_digitChar n h, Nat.mul_comm]
    · rw [natDigits_ge n (by omega)]
      simp only [vfold, List.foldl_append, List.foldl_cons, List.foldl_nil, List.length_append,
        List.length_singleton]
      have hrec := ih (n / 10) (Nat.div_lt_self (by omega) (by omega)) acc
      simp only [vfold] at hrec
      rw [hrec, charDigit_digitChar _ (Nat.mod_lt _ (by omega))]
      ring_nf
      omega

theorem pyDigitsAux_digits (ds : Str) (hds : ∀ c ∈ ds, isDigitChar c = true) :
    ∀ acc, pyDigitsAux ds false acc = some (vfold acc ds) := by
  induction ds with
  | nil => intro acc; rfl
  | cons c cs ih =>
    intro acc
    have hc : isDigitChar c = true := hds c (by simp)
    unfold pyDigitsAux
    rw [if_pos hc]
    exact ih (fun x hx => hds x (by simp [hx])) _

theorem pyBody_natDigits (n : Nat) : pyBody (natDigits n) = some n := by
  obtain ⟨c, cs, hcons⟩ : ∃ c cs, natDigits n = c :: cs := by
    cases h : natDigits n with
    | nil => exact absurd h (natDigits_ne_nil n)
    | cons c cs => exact ⟨c, cs, rfl⟩
  have hall := natDigits_digits n
  have hv := vfold_natDigits n 0
  rw [hcons] at hall hv
  simp only [Nat.zero_mul, Nat.zero_add] at hv
  have hv' : vfold (charDigit c) cs = n := by
    simpa [vfold, List.foldl_cons] using hv
  rw [hcons]
  have hred : pyBody (c :: cs) = pyDigitsAux cs false (charDigit c) := by
    simp [pyBody, hall c (by simp)]
  rw [hred, pyDigitsAux_digits cs (fun x hx => hall x (by simp [hx])), hv']

theorem digit_ne_space {c : Char} (h : isDigitChar c = true) : c ≠ ' ' := by
  intro he
  rw [he] at h
  exact absurd h (by decide)

theorem digit_ne_minus {c : Char} (h : isDigitChar c = true) : c ≠ '-' := by
  intro he
  rw [he] at h
  exact absurd h (by decide)

theorem digit_ne_plus {c : Char} (h : isDigitChar c = true) : c ≠ '+' := by
  intro he
  rw [he] at h
  exact absurd h (by decide)

theorem dropWhile_eq_self_of_all (p : Char → Bool) (t : Str) (ht : ∀ c ∈ t, p c = false) :
    t.dropWhile p = t := by
  cases t with
  | nil => rfl
  | cons a l =>
    rw [List.dropWhile_cons]
    simp [ht a (by simp)]

theorem pyStrip_eq_self (s : Str) (h : ∀ c ∈ s, c ≠ ' ') : pyStrip s = s := by
  have hp : ∀ c ∈ s, (fun c => decide (c = ' ')) c = false := by
    intro c hc
    simp [h c hc]
  unfold pyStrip
  rw [dropWhile_eq_self_of_all _ s hp,
    dropWhile_eq_self_of_all _ s.reverse (fun c hc => hp c (List.mem_reverse.mp hc)),
    List.reverse_reverse]

theorem pyInt_pyStrOfInt (i : Int) : pyInt (pyStrOfInt i) = some i := by
  by_cases hneg : i < 0
  · have hrep : pyStrOfInt i = '-' :: natDigits i.natAbs := by
      unfold pyStrOfInt
      rw [if_pos hneg]
    have hstrip : pyStrip (pyStrOfInt i) = '-' :: natDigits i.natAbs := by
      rw [hrep]
      refine pyStrip_eq_self _ ?_
      intro c hc
      rcases List.mem_cons.mp hc with h | h
      · subst h; decide
      · exact digit_ne_space (natDigits_digits _ c h)
    have hval : (-(i.natAbs : Int)) = i := by omega
    unfold pyInt
    rw [hstrip]
    simp [pyBody_natDigits, hval, abs_of_neg hneg]
  · have hrep : pyStrOfInt i = natDigits i.toNat := by
      unfold pyStrOfInt
      rw [if_neg hneg]
    obtain ⟨c, cs, hcons⟩ : ∃ c cs, natDigits i.toNat = c :: cs := by
      cases h : natDigits i.toNat with
      | nil => exact absurd h (natDigits_ne_nil _)
      | cons c cs => exact ⟨c, cs, rfl⟩
    have hall := natDigits_digits i.toNat
    rw [hcons] at hall
    have hdc : isDigitChar c = true := hall c (by simp)
    have hstrip : pyStrip (pyStrOfInt i) = c :: cs := by
      rw [hrep, hcons]
      refine pyStrip_eq_self _ ?_
      intro x hx
      exact digit_ne_space (hall x hx)
    have hval : ((i.toNat : Int)) = i := Int.toNat_of_nonneg (by omega)
    unfold pyInt
    rw [hstrip]
    simp [digit_ne_minus hdc, digit_ne_plus hdc, ← hcons, pyBody_natDigits, hval]

/-! ## Lemmas: the csv writer and reader are inverse on plain records -/

theorem plainChar_spec {c : Char} (h : plainChar c = true) :
    c ≠ '\t' ∧ c ≠ '"' ∧ c ≠ '\'' ∧ c ≠ ',' ∧ c ≠ '\r' ∧ c ≠ '\n' := by
  simp only [plainChar, Bool.not_eq_eq_eq_not, Bool.not_true, Bool.or_eq_false_iff,
    decide_eq_false_iff_not] at h
  exact ⟨h.1.1.1.1.1, h.1.1.1.1.2, h.1.1.1.2, h.1.1.2, h.1.2, h.2⟩

theorem digit_plainChar {c : Char} (h : isDigitChar c = true) : plainChar c = true := by
  simp only [plainChar, Bool.not_eq_eq_eq_not, Bool.not_true, Bool.or_eq_false_iff,
    decide_eq_false_iff_not]
  refine ⟨⟨⟨⟨⟨?_, ?_⟩, ?_⟩, ?_⟩, ?_⟩, ?_⟩ <;>
    { intro he; rw [he] at h; exact absurd h (by decide) }

theorem pyStrOfInt_plain (i : Int) : plainField (pyStrOfInt i) = true := by
  rw [plainField, List.all_eq_true]
  intro c hc
  unfold pyStrOfInt at hc
  split at hc
  · rcases List.mem_cons.mp hc with h | h
    · subst h; decide
    · exact digit_plainChar (natDigits_digits _ c h)
  · exact digit_plainChar (natDigits_digits _ c hc)

theorem needsQuote_false {d : Dialect} (hd : d = defaultDialect ∨ d = sniffedTab)
    {c : Char} (hc : plainChar c = true) : needsQuote d c = false := by
  obtain ⟨h1, h2, _, _, h4, h5⟩ := plainChar_spec hc
  rcases hd with rfl | rfl <;>
    simp [needsQuote, defaultDialect, sniffedTab, h1, h2, h4, h5]

theorem writeField_plain {d : Dialect} (hd : d = defaultDialect ∨ d = sniffedTab)
    {f : Str} (hf : plainField f = true) : writeField d f = .ok f := by
  have hany : f.any (needsQuote d) = false := by
    rw [List.any_eq_false]
    intro c hc
    have := needsQuote_false hd (by rw [plainField, List.all_eq_true] at hf; exact hf c hc)
    simp [this]
  simp [writeField, hany]

theorem writeRow_plain {d : Dialect} (hd : d = defaultDialect ∨ d = sniffedTab)
    {fs : List Str} (hfs : ∀ f ∈ fs, plainField f = true) :
    writeRow d fs = .ok (joinFields fs ++ d.lineterminator) := by
  have hdelim : d.delimiter = '\t' := by rcases hd with rfl | rfl <;> rfl
  have hmap : fs.mapM (writeField d) = Except.ok fs := by
    induction fs with
    | nil => rfl
    | cons f fs ih =>
      rw [List.mapM_cons, writeField_plain hd (hfs f (by simp)),
        ih (fun x hx => hfs x (by simp [hx]))]
      rfl
  unfold writeRow
  rw [hmap]
  simp [joinFields, hdelim]

theorem writerows_plain {d : Dialect} (hd : d = defaultDialect ∨ d = sniffedTab)
    {rows : List Entry} (hrows : ∀ e ∈ rows, ∀ f ∈ (entryFields e), plainField f = true) :
    writerows d rows =
      .ok ((rows.map (fun e => joinFields (entryFields e) ++ d.lineterminator)).flatten) := by
  have hmap : rows.mapM (fun e => writeRow d (entryFields e)) =
      Except.ok (rows.map (fun e => joinFields (entryFields e) ++ d.lineterminator)) := by
    induction rows with
    | nil => rfl
    | cons e rows ih =>
      rw [List.mapM_cons, writeRow_plain hd (hrows e (by simp)),
        ih (fun x hx => hrows x (by simp [hx]))]
      rfl
  unfold writerows
  rw [hmap]
  rfl

theorem dropLF_length (cs : List Char) : (dropLF cs).length ≤ cs.length := by
  unfold dropLF
  split <;> simp

theorem parseAuxF_congr (delim quote : Char) : ∀ (f1 : Nat) (cs : List Char) (inQ : Bool)
    (cur : Str) (flds : List Str) (saw : Bool) (f2 : Nat),
    cs.length < f1 → cs.length < f2 →
    parseAuxF delim quote f1 cs inQ cur flds saw
      = parseAuxF delim quote f2 cs inQ cur flds saw := by
  intro f1
  induction f1 with
  | zero =>
    intro cs _ _ _ _ _ h1 _
    omega
  | succ f1 ih =>
    intro cs inQ cur flds saw f2 h1 h2
    cases f2 with
    | zero => omega
    | succ f2 =>
      cases cs with
      | nil => cases inQ <;> rfl
      | cons c cs' =>
        simp only [List.length_cons] at h1 h2
        cases inQ with
        | false =>
          simp only [parseAuxF]
          split_ifs
          all_goals first
            | exact ih cs' true cur flds true f2 (by omega) (by omega)
            | exact ih cs' false [] (flds ++ [cur]) true f2 (by omega) (by omega)
            | exact congrArg _ (ih (dropLF cs') false [] [] false f2
                (by have := dropLF_length cs'; omega) (by have := dropLF_length cs'; omega))
            | exact congrArg _ (ih cs' false [] [] false f2 (by omega) (by omega))
            | exact ih cs' false (cur ++ [c]) flds true f2 (by omega) (by omega)
        | true =>
          cases cs' with
          | nil =>
            simp only [parseAuxF]
            split_ifs
            · exact ih [] false cur flds true f2 (by simp at h1 ⊢; omega) (by simp at h2 ⊢; omega)
            · exact ih [] true (cur ++ [c]) flds saw f2 (by simp at h1 ⊢; omega) (by simp at h2 ⊢; omega)
          | cons c' cs'' =>
            simp only [List.length_cons] at h1 h2
            simp only [parseAuxF]
            split_ifs
            · exact ih cs'' true (cur ++ [quote]) flds saw f2 (by omega) (by omega)
            · exact ih (c' :: cs'') false cur flds true f2
                (by simp only [List.length_cons]; omega) (by simp only [List.length_cons]; omega)
            · exact ih (c' :: cs'') true (cur ++ [c]) flds saw f2
                (by simp only [List.length_cons]; omega) (by simp only [List.length_cons]; omega)

theorem parseAux_cons_false (c : Char) (cs : List Char) (cur : Str) (flds : List Str)
    (saw : Bool) :
    parseAux '\t' '"' (c :: cs) false cur flds saw =
      if c = '"' then parseAux '\t' '"' cs true cur flds true
      else if c = '\t' then parseAux '\t' '"' cs false [] (flds ++ [cur]) true
      else if c = '\r' then
        (if saw then flds ++ [cur] else []) :: parseAux '\t' '"' (dropLF cs) false [] [] false
      else if c = '\n' then
        (if saw then flds ++ [cur] else []) :: parseAux '\t' '"' cs false [] [] false
      else parseAux '\t' '"' cs false (cur ++ [c]) flds true := by
  unfold parseAux
  simp only [List.length_cons, parseAuxF]
  split_ifs
  all_goals first
    | rfl
    | exact congrArg _ (parseAuxF_congr '\t' '"' (cs.length + 1) (dropLF cs) false [] [] false
        ((dropLF cs).length + 1) (by have := dropLF_length cs; omega) (by omega))

theorem parseAux_nil_false (cur : Str) (flds : List Str) :
    parseAux '\t' '"' [] false cur flds false = [] :=
  rfl

theorem parseAux_plain : ∀ (f : Str), plainField f = true →
    ∀ (cs : List Char) (cur : Str) (flds : List Str) (saw : Bool),
      parseAux '\t' '"' (f ++ cs) false cur flds saw
        = parseAux '\t' '"' cs false (cur ++ f) flds (saw || !f.isEmpty) := by
  intro f
  induction f with
  | nil => intro _ cs cur flds saw; simp
  | cons c f ih =>
    intro hf cs cur flds saw
    have hc : plainChar c = true := by
      rw [plainField, List.all_cons, Bool.and_eq_true] at hf
      exact hf.1
    have hftail : plainField f = true := by
      rw [plainField, List.all_cons, Bool.and_eq_true] at hf
      exact hf.2
    obtain ⟨h1, h2, _, _, h4, h5⟩ := plainChar_spec hc
    rw [List.cons_append, parseAux_cons_false, if_neg h2, if_neg h1, if_neg h4, if_neg h5,
      ih hftail cs (cur ++ [c]) flds true]
    simp

theorem parseAux_term (term : Str) (hterm : term = ['\n'] ∨ term = ['\r', '\n'])
    (cs : List Char) (cur : Str) (flds : List Str) :
    parseAux '\t' '"' (term ++ cs) false cur flds true
      = (flds ++ [cur]) :: parseAux '\t' '"' cs false [] [] false := by
  rcases hterm with rfl | rfl
  · rw [List.cons_append, List.nil_append, parseAux_cons_false,
      if_neg (by decide), if_neg (by decide), if_neg (by decide), if_pos rfl]
    simp
  · rw [List.cons_append, List.cons_append, List.nil_append, parseAux_cons_false,
      if_neg (by decide), if_neg (by decide), if_pos rfl]
    simp [dropLF]

theorem joinFields_single (f : Str) : joinFields [f] = f := by
  simp [joinFields]

theorem joinFields_cons (f g : Str) (gs : List Str) :
    joinFields (f :: g :: gs) = f ++ '\t' :: joinFields (g :: gs) := by
  simp [joinFields, List.intersperse_cons_cons]

theorem parseAux_row (term : Str) (hterm : term = ['\n'] ∨ term = ['\r', '\n']) :
    ∀ (rest : List Str) (f : Str) (cs : List Char) (cur : Str) (flds : List Str) (saw : Bool),
      plainField f = true → (∀ g ∈ rest, plainField g = true) → (saw = true ∨ f ≠ []) →
      parseAux '\t' '"' ((joinFields (f :: rest) ++ term) ++ cs) false cur flds saw
        = (flds ++ (cur ++ f) :: rest) :: parseAux '\t' '"' cs false [] [] false := by
  intro rest
  induction rest with
  | nil =>
    intro f cs cur flds saw hf _ hsaw
    have hsaw' : (saw || !f.isEmpty) = true := by
      rcases hsaw with rfl | hne
      · simp
      · cases f with
        | nil => exact absurd rfl hne
        | cons a l => simp
    rw [joinFields_single, List.append_assoc, parseAux_plain f hf (term ++ cs) cur flds saw,
      hsaw', parseAux_term term hterm cs (cur ++ f) flds]
  | cons g gs ih =>
    intro f cs cur flds saw hf hrest hsaw
    have hsaw' : (saw || !f.isEmpty) = true := by
      rcases hsaw with rfl | hne
      · simp
      · cases f with
        | nil => exact absurd rfl hne
        | cons a l => simp
    have hshape : ((joinFields (f :: g :: gs) ++ term) ++ cs)
        = f ++ ('\t' :: ((joinFields (g :: gs) ++ term) ++ cs)) := by
      rw [joinFields_cons]
      simp [List.append_assoc]
    rw [hshape, parseAux_plain f hf _ cur flds saw, hsaw', parseAux_cons_false,
      if_neg (by decide), if_pos rfl,
      ih g cs [] (flds ++ [cur ++ f]) true (hrest g (by simp))
        (fun x hx => hrest x (by simp [hx])) (Or.inl rfl)]
    simp

theorem parseAux_rows (term : Str) (hterm : term = ['\n'] ∨ term = ['\r', '\n']) :
    ∀ (rows : List (List Str)),
      (∀ r ∈ rows, r ≠ [] ∧ r.headI ≠ [] ∧ ∀ g ∈ r, plainField g = true) →
      parseAux '\t' '"' ((rows.map (fun r => joinFields r ++ term)).flatten) false [] [] false
        = rows := by
  intro rows
  induction rows with
  | nil => intro _; exact parseAux_nil_false [] []
  | cons r rows ih =>
    intro hr
    obtain ⟨hne, hhead, hplain⟩ := hr r (by simp)
    obtain ⟨f, rest, rfl⟩ : ∃ f rest, r = f :: rest := by
      cases r with
      | nil => exact absurd rfl hne
      | cons f rest => exact ⟨f, rest, rfl⟩
    simp only [List.headI] at hhead
    rw [List.map_cons, List.flatten_cons,
      parseAux_row term hterm rest f _ [] [] false (hplain f (by simp))
        (fun x hx => hplain x (by simp [hx])) (Or.inr hhead),
      ih (fun x hx => hr x (by simp [hx]))]
    simp

theorem entryOfRecord_entryFields (e : Entry) :
    TFState.entryOfRecord (entryFields e) = .ok e := by
  simp [TFState.entryOfRecord, entryFields, pyInt_pyStrOfInt]

theorem mapM_entryOfRecord (rows : List Entry) :
    (rows.map entryFields).mapM TFState.entryOfRecord = Except.ok rows := by
  induction rows with
  | nil => rfl
  | cons e rows ih =>
    rw [List.map_cons, List.mapM_cons]
    show (do
      let x ← TFState.entryOfRecord (entryFields e)
      let xs ← (rows.map entryFields).mapM TFState.entryOfRecord
      pure (x :: xs)) = Except.ok (e :: rows)
    rw [show TFState.entryOfRecord (entryFields e) = Except.ok e from
      entryOfRecord_entryFields e, ih]
    rfl

/-! ## Lemmas: character inventory of rendered contents, and sniffing -/

theorem joinFields_chars : ∀ (fs : List Str), ∀ c ∈ joinFields fs, c = '\t' ∨ ∃ f ∈ fs, c ∈ f := by
  intro fs
  match fs with
  | [] => intro c hc; simp [joinFields] at hc
  | [f] =>
    intro c hc
    rw [joinFields_single] at hc
    exact Or.inr ⟨f, by simp, hc⟩
  | f :: g :: gs =>
    intro c hc
    rw [joinFields_cons] at hc
    rcases List.mem_append.mp hc with h | h
    · exact Or.inr ⟨f, by simp, h⟩
    · rcases List.mem_cons.mp h with h | h
      · exact Or.inl h
      · rcases joinFields_chars (g :: gs) c h with h | ⟨f', hf', hc'⟩
        · exact Or.inl h
        · exact Or.inr ⟨f', by simp [List.mem_cons.mp hf'], hc'⟩

theorem rendered_chars (term : Str) (rows : List (List Str)) :
    ∀ c ∈ (rows.map (fun r => joinFields r ++ term)).flatten,
      c = '\t' ∨ c ∈ term ∨ ∃ r ∈ rows, ∃ f ∈ r, c ∈ f := by
  intro c hc
  rw [List.mem_flatten] at hc
  obtain ⟨l, hl, hcl⟩ := hc
  rw [List.mem_map] at hl
  obtain ⟨r, hr, rfl⟩ := hl
  rcases List.mem_append.mp hcl with h | h
  · rcases joinFields_chars _ c h with h | ⟨f, hf, hcf⟩
    · exact Or.inl h
    · exact Or.inr (Or.inr ⟨r, hr, f, hf, hcf⟩)
  · exact Or.inr (Or.inl h)

theorem plain_not_mem {c : Char} {f : Str} (hf : plainField f = true)
    (hc : plainChar c = false) : c ∉ f := by
  intro hmem
  rw [plainField, List.all_eq_true] at hf
  rw [hf c hmem] at hc
  exact Bool.noConfusion hc

theorem contains_eq_false_of_not_mem {c : Char} {l : Str} (h : c ∉ l) :
    l.contains c = false := by
  simpa using h

theorem rendered_no_special (term : Str) (hterm : term = ['\n'] ∨ term = ['\r', '\n'])
    (rows : List (List Str)) (hrows : ∀ r ∈ rows, ∀ f ∈ r, plainField f = true)
    {c : Char} (hc : plainChar c = false) (hc2 : c ≠ '\t' ∧ c ≠ '\r' ∧ c ≠ '\n') :
    c ∉ (rows.map (fun r => joinFields r ++ term)).flatten := by
  intro hmem
  rcases rendered_chars term rows c hmem with h | h | ⟨r, hr, f, hf, hcf⟩
  · exact hc2.1 h
  · rcases hterm with rfl | rfl
    · simp only [List.mem_singleton] at h
      exact hc2.2.2 h
    · rcases List.mem_cons.mp h with h | h
      · exact hc2.2.1 h
      · simp only [List.mem_singleton] at h
        exact hc2.2.2 h
  · exact plain_not_mem (hrows r hr f hf) hc hcf

theorem tab_mem_take (a tail : Str) (ha : a.length ≤ 1023) :
    '\t' ∈ (a ++ '\t' :: tail).take 1024 := by
  rw [List.take_append_eq_append_take, List.take_of_length_le (by omega)]
  obtain ⟨m, hm⟩ : ∃ m, 1024 - a.length = m + 1 := ⟨1023 - a.length, by omega⟩
  rw [hm, List.take_succ_cons]
  simp

theorem contains_eq_true_of_mem {c : Char} {l : Str} (h : c ∈ l) : l.contains c = true := by
  simpa using h

theorem splitNl_append (a : Str) (ha : '\n' ∉ a) (rest : Str) :
    splitNl (a ++ '\n' :: rest) = a :: splitNl rest := by
  induction a with
  | nil => simp [splitNl]
  | cons c cs ih =>
    have hc : c ≠ '\n' := by
      intro hh
      exact ha (by simp [hh])
    have hcs : '\n' ∉ cs := fun hh => ha (by simp [hh])
    show splitNl (c :: (cs ++ '\n' :: rest)) = (c :: cs) :: splitNl rest
    rw [splitNl, if_neg hc, ih hcs]

theorem splitNl_lines (g : List Str → Str) :
    ∀ (rows : List (List Str)), (∀ r ∈ rows, '\n' ∉ g r) →
      splitNl ((rows.map (fun r => g r ++ ['\n'])).flatten) = rows.map g ++ [[]] := by
  intro rows
  induction rows with
  | nil => intro _; rfl
  | cons r rest ih =>
    intro h
    rw [List.map_cons, List.flatten_cons, List.append_assoc]
    show splitNl (g r ++ '\n' :: (rest.map (fun r => g r ++ ['\n'])).flatten) = _
    rw [splitNl_append (g r) (h r (by simp)) _, ih (fun x hx => h x (by simp [hx]))]
    rfl

theorem sniffLines_lines (g : List Str → Str) (rows : List (List Str))
    (hnl : ∀ r ∈ rows, '\n' ∉ g r) (hne : ∀ r ∈ rows, g r ≠ []) :
    sniffLines ((rows.map (fun r => g r ++ ['\n'])).flatten) = rows.map g := by
  unfold sniffLines
  rw [splitNl_lines g rows hnl, List.filter_append]
  have h1 : (rows.map g).filter (fun l => !l.isEmpty) = rows.map g := by
    rw [List.filter_eq_self]
    intro a ha
    rw [List.mem_map] at ha
    obtain ⟨r, hr, rfl⟩ := ha
    simpa using hne r hr
  rw [h1]
  simp

theorem joinFields_count_tab : ∀ (fs : List Str), (∀ f ∈ fs, '\t' ∉ f) →
    (joinFields fs).count '\t' = fs.length - 1 := by
  intro fs
  match fs with
  | [] => intro _; rfl
  | [f] =>
    intro h
    rw [joinFields_single]
    simp [List.count_eq_zero.mpr (h f (by simp))]
  | f :: g :: gs =>
    intro h
    have hf : ('\t') ∉ f := h f (by simp)
    have ih := joinFields_count_tab (g :: gs) (fun x hx => h x (by simp [hx]))
    rw [joinFields_cons, List.count_append, List.count_cons, ih,
      List.count_eq_zero.mpr hf]
    simp

theorem hasTabSpace_cons (c : Char) (cs : Str) (hc : c ≠ '\t') :
    hasTabSpace (c :: cs) = hasTabSpace cs := by
  cases cs with
  | nil => rfl
  | cons c' cs' =>
    show (if c = '\t' ∧ c' = ' ' then true else hasTabSpace (c' :: cs'))
      = hasTabSpace (c' :: cs')
    rw [if_neg (fun h => hc h.1)]

theorem hasTabSpace_no_tab : ∀ (l : Str), '\t' ∉ l → hasTabSpace l = false := by
  intro l
  induction l with
  | nil => intro _; rfl
  | cons c cs ih =>
    intro h
    rw [hasTabSpace_cons c cs (fun hh => h (by simp [hh]))]
    exact ih (fun hh => h (by simp [hh]))

theorem hasTabSpace_append : ∀ (f : Str), '\t' ∉ f → ∀ (cs : Str),
    hasTabSpace (f ++ cs) = hasTabSpace cs := by
  intro f
  induction f with
  | nil => intro _ cs; rfl
  | cons c f' ih =>
    intro hf cs
    have hc : c ≠ '\t' := fun hh => hf (by simp [hh])
    show hasTabSpace (c :: (f' ++ cs)) = hasTabSpace cs
    rw [hasTabSpace_cons c _ hc]
    exact ih (fun hh => hf (by simp [hh])) cs

theorem hasTabSpace_append_single (l : Str) (c : Char) (hc : c ≠ ' ') :
    hasTabSpace (l ++ [c]) = hasTabSpace l := by
  induction l with
  | nil => rfl
  | cons a l' ih =>
    cases l' with
    | nil =>
      show (if a = '\t' ∧ c = ' ' then true else hasTabSpace [c]) = hasTabSpace [a]
      rw [if_neg (fun h => hc h.2)]
      rfl
    | cons b l'' =>
      rw [List.cons_append] at ih
      show (if a = '\t' ∧ b = ' ' then true else hasTabSpace (b :: (l'' ++ [c])))
        = (if a = '\t' ∧ b = ' ' then true else hasTabSpace (b :: l''))
      rw [ih]

theorem tab_join_no_tabspace : ∀ (fs : List Str), (∀ f ∈ fs, '\t' ∉ f) →
    (∀ f ∈ fs, startsWithSpaceB f = false) →
    hasTabSpace ('\t' :: joinFields fs) = false := by
  intro fs
  match fs with
  | [] => intro _ _; rfl
  | [f] =>
    intro htab hsp
    rw [joinFields_single]
    cases f with
    | nil => rfl
    | cons c f' =>
      have hc : c ≠ ' ' := by
        have := hsp (c :: f') (by simp)
        simpa [startsWithSpaceB] using this
      show (if ('\t' : Char) = '\t' ∧ c = ' ' then true else hasTabSpace (c :: f')) = false
      rw [if_neg (fun h => hc h.2)]
      exact hasTabSpace_no_tab (c :: f') (htab (c :: f') (by simp))
  | f :: g :: gs =>
    intro htab hsp
    rw [joinFields_cons]
    have ihcall := tab_join_no_tabspace (g :: gs)
      (fun x hx => htab x (by simp [hx])) (fun x hx => hsp x (by simp [hx]))
    cases f with
    | nil =>
      show (if ('\t' : Char) = '\t' ∧ ('\t' : Char) = ' ' then true
        else hasTabSpace ('\t' :: joinFields (g :: gs))) = false
      rw [if_neg (by decide), ihcall]
    | cons c f' =>
      have hc : c ≠ ' ' := by
        have := hsp (c :: f') (by simp)
        simpa [startsWithSpaceB] using this
      have hcf : '\t' ∉ c :: f' := htab (c :: f') (by simp)
      show (if ('\t' : Char) = '\t' ∧ c = ' ' then true
        else hasTabSpace (c :: (f' ++ '\t' :: joinFields (g :: gs)))) = false
      rw [if_neg (fun h => hc h.2),
        hasTabSpace_cons c _ (fun hh => hcf (by simp [hh])),
        hasTabSpace_append f' (fun hh => hcf (by simp [hh])) _, ihcall]

theorem joinFields_no_tabspace (fs : List Str) (htab : ∀ f ∈ fs, '\t' ∉ f)
    (hsp : ∀ f ∈ fs.drop 1, startsWithSpaceB f = false) :
    hasTabSpace (joinFields fs) = false := by
  match fs with
  | [] => rfl
  | [f] =>
    rw [joinFields_single]
    exact hasTabSpace_no_tab f (htab f (by simp))
  | f :: g :: gs =>
    rw [joinFields_cons, hasTabSpace_append f (htab f (by simp)) _]
    exact tab_join_no_tabspace (g :: gs) (fun x hx => htab x (by simp [hx]))
      (fun x hx => hsp x hx)

/-- On a sample laid out as nonempty newline-free lines each followed by a
`'\n'`, with a uniform positive per-line tab count, no quote or comma, and no
tab-space bigram on the first line, the sniffer settles on the tab dialect
with `skipinitialspace` off. -/
theorem sniff_uniform (g : List Str → Str) (rows : List (List Str)) (r0 : List Str)
    (rest : List (List Str)) (hrows0 : rows = r0 :: rest) (n : Nat) (hn : 0 < n)
    (hcount : ∀ r ∈ rows, (g r).count '\t' = n)
    (hnl : ∀ r ∈ rows, '\n' ∉ g r) (hne : ∀ r ∈ rows, g r ≠ [])
    (hnq : ∀ r ∈ rows, '"' ∉ g r) (hnap : ∀ r ∈ rows, '\'' ∉ g r)
    (hnc : ∀ r ∈ rows, ',' ∉ g r)
    (hts0 : hasTabSpace (g r0) = false) :
    sniff ((rows.map (fun r => g r ++ ['\n'])).flatten) = .ok sniffedTab := by
  subst hrows0
  have hmemchar : ∀ (c : Char), (∀ r ∈ r0 :: rest, c ∉ g r) → c ≠ '\n' →
      c ∉ ((r0 :: rest).map (fun r => g r ++ ['\n'])).flatten := by
    intro c hrows hc hmem
    rw [List.mem_flatten] at hmem
    obtain ⟨l, hl, hcl⟩ := hmem
    rw [List.mem_map] at hl
    obtain ⟨r, hr, rfl⟩ := hl
    rcases List.mem_append.mp hcl with h | h
    · exact hrows r hr h
    · simp only [List.mem_singleton] at h
      exact hc h
  have hqS : '"' ∉ ((r0 :: rest).map (fun r => g r ++ ['\n'])).flatten :=
    hmemchar '"' hnq (by decide)
  have hapS : '\'' ∉ ((r0 :: rest).map (fun r => g r ++ ['\n'])).flatten :=
    hmemchar '\'' hnap (by decide)
  have hcS : ',' ∉ ((r0 :: rest).map (fun r => g r ++ ['\n'])).flatten :=
    hmemchar ',' hnc (by decide)
  have hneS : ((r0 :: rest).map (fun r => g r ++ ['\n'])).flatten ≠ [] := by
    rw [List.map_cons, List.flatten_cons]
    simp
  have hcond : 0 < (g r0).count '\t'
      ∧ (∀ l ∈ g r0 :: rest.map g, l.count '\t' = (g r0).count '\t')
      ∧ hasTabSpace (g r0) = false := by
    rw [hcount r0 (by simp)]
    refine ⟨hn, ?_, hts0⟩
    intro l hl
    rcases List.mem_cons.mp hl with rfl | hl'
    · exact hcount r0 (by simp)
    · rw [List.mem_map] at hl'
      obtain ⟨r, hr, rfl⟩ := hl'
      exact hcount r (by simp [hr])
  unfold sniff
  simp only []
  rw [if_neg hneS, contains_eq_false_of_not_mem hqS, contains_eq_false_of_not_mem hapS,
    contains_eq_false_of_not_mem hcS,
    if_neg (by decide), sniffLines_lines g (r0 :: rest) hnl hne, List.map_cons]
  simp only [List.headI]
  exact if_pos hcond

theorem sniff_rendered (term : Str) (hterm : term = ['\n'] ∨ term = ['\r', '\n'])
    (rows : List (List Str)) (r0 : List Str) (rest : List (List Str))
    (hrows0 : rows = r0 :: rest) (k : Nat) (hk : 2 ≤ k)
    (hcount : ∀ r ∈ rows, r.length = k)
    (hplain : ∀ r ∈ rows, ∀ f ∈ r, plainField f = true)
    (hsp0 : ∀ f ∈ r0.drop 1, startsWithSpaceB f = false) :
    sniff ((rows.map (fun r => joinFields r ++ term)).flatten) = .ok sniffedTab := by
  have hr0mem : r0 ∈ rows := by
    rw [hrows0]
    simp
  have hts0 : hasTabSpace (joinFields r0) = false :=
    joinFields_no_tabspace r0
      (fun f hf => plain_not_mem (hplain r0 hr0mem f hf) (by decide)) hsp0
  have htabn : ∀ r ∈ rows, (joinFields r).count '\t' = k - 1 := by
    intro r hr
    rw [joinFields_count_tab r
      (fun f hf => plain_not_mem (hplain r hr f hf) (by decide)), hcount r hr]
  have hjoin_not : ∀ (c : Char), plainChar c = false → c ≠ '\t' →
      ∀ r ∈ rows, c ∉ joinFields r := by
    intro c hc hct r hr hmem
    rcases joinFields_chars r c hmem with h | ⟨f, hf, hcf⟩
    · exact hct h
    · exact plain_not_mem (hplain r hr f hf) hc hcf
  have hjoin_ne : ∀ r ∈ rows, joinFields r ≠ [] := by
    intro r hr h
    have := htabn r hr
    rw [h] at this
    simp only [List.count_nil] at this
    omega
  rcases hterm with rfl | rfl
  · exact sniff_uniform joinFields rows r0 rest hrows0 (k - 1) (by omega) htabn
      (fun r hr => hjoin_not '\n' (by decide) (by decide) r hr)
      hjoin_ne
      (fun r hr => hjoin_not '"' (by decide) (by decide) r hr)
      (fun r hr => hjoin_not '\'' (by decide) (by decide) r hr)
      (fun r hr => hjoin_not ',' (by decide) (by decide) r hr)
      hts0
  · have hfn : (fun r => joinFields r ++ ['\r', '\n'])
        = (fun r => (joinFields r ++ ['\r']) ++ ['\n']) := by
      funext r
      rw [List.append_assoc]
      rfl
    rw [hfn]
    refine sniff_uniform (fun r => joinFields r ++ ['\r']) rows r0 rest hrows0
      (k - 1) (by omega) ?_ ?_ ?_ ?_ ?_ ?_ ?_
    · intro r hr
      rw [List.count_append, htabn r hr]
      rfl
    · intro r hr hmem
      rcases List.mem_append.mp hmem with h | h
      · exact hjoin_not '\n' (by decide) (by decide) r hr h
      · simp only [List.mem_singleton] at h
        exact absurd h (by decide)
    · intro r hr
      simp
    · intro r hr hmem
      rcases List.mem_append.mp hmem with h | h
      · exact hjoin_not '"' (by decide) (by decide) r hr h
      · simp only [List.mem_singleton] at h
        exact absurd h (by decide)
    · intro r hr hmem
      rcases List.mem_append.mp hmem with h | h
      · exact hjoin_not '\'' (by decide) (by decide) r hr h
      · simp only [List.mem_singleton] at h
        exact absurd h (by decide)
    · intro r hr hmem
      rcases List.mem_append.mp hmem with h | h
      · exact hjoin_not ',' (by decide) (by decide) r hr h
      · simp only [List.mem_singleton] at h
        exact absurd h (by decide)
    · show hasTabSpace (joinFields r0 ++ ['\r']) = false
      rw [hasTabSpace_append_single _ '\r' (by decide)]
      exact hts0

/-! ## Lemmas: the two calendar conversions are mutually inverse -/

set_option maxHeartbeats 1000000 in
theorem civil_year_ge (z : Nat) (h : 1 ≤ (civilFromDaysN z).1) : 306 ≤ z := by
  by_contra hlt
  push_neg at hlt
  revert h
  simp only [civilFromDaysN]
  split_ifs <;> omega

/-! ## Lemmas: zero-padded numerals parse back exactly -/

theorem mapM_ok_length {α β : Type} (f : α → Except Err β) :
    ∀ (xs : List α) (ys : List β), xs.mapM f = .ok ys → ys.length = xs.length := by
  intro xs
  induction xs with
  | nil =>
    intro ys h
    have h2 : Except.ok ([] : List β) = (Except.ok ys : Except Err (List β)) := by
      rw [← h]
      rfl
    rw [Except.ok.injEq] at h2
    rw [← h2]
    rfl
  | cons x xs ih =>
    intro ys h
    rw [List.mapM_cons] at h
    cases hx : f x with
    | error e =>
      rw [hx] at h
      exact Except.noConfusion h
    | ok b =>
      rw [hx] at h
      cases hm : xs.mapM f with
      | error e =>
        rw [hm] at h
        exact Except.noConfusion h
      | ok bs =>
        rw [hm] at h
        have h' : Except.ok (b :: bs) = (Except.ok ys : Except Err (List β)) := h
        rw [Except.ok.injEq] at h'
        rw [← h', List.length_cons, ih bs hm]
        rfl

theorem mapM_ok_mem {α β : Type} (f : α → Except Err β) :
    ∀ (xs : List α) (ys : List β), xs.mapM f = .ok ys →
      ∀ y ∈ ys, ∃ x, f x = .ok y := by
  intro xs
  induction xs with
  | nil =>
    intro ys h y hy
    have h2 : Except.ok ([] : List β) = (Except.ok ys : Except Err (List β)) := by
      rw [← h]
      rfl
    rw [Except.ok.injEq] at h2
    rw [← h2] at hy
    simp at hy
  | cons x xs ih =>
    intro ys h y hy
    rw [List.mapM_cons] at h
    cases hx : f x with
    | error e =>
      rw [hx] at h
      exact Except.noConfusion h
    | ok b =>
      rw [hx] at h
      cases hm : xs.mapM f with
      | error e =>
        rw [hm] at h
        exact Except.noConfusion h
      | ok bs =>
        rw [hm] at h
        have h' : Except.ok (b :: bs) = (Except.ok ys : Except Err (List β)) := h
        rw [Except.ok.injEq] at h'
        rw [← h'] at hy
        rcases List.mem_cons.mp hy with rfl | hmem
        · exact ⟨x, hx⟩
        · exact ih bs hm y hmem

/-! ## Lemmas: inversion of `write` and `format` -/

theorem writeRow_ok_suffix {d : Dialect} {fs : List Str} {s : Str}
    (h : writeRow d fs = .ok s) : ∃ p, s = p ++ d.lineterminator := by
  unfold writeRow at h
  cases hm : fs.mapM (writeField d) with
  | error e =>
    rw [hm] at h
    exact Except.noConfusion h
  | ok gs =>
    rw [hm] at h
    have h' : Except.ok ((gs.intersperse [d.delimiter]).flatten ++ d.lineterminator)
        = (Except.ok s : Except Err Str) := h
    rw [Except.ok.injEq] at h'
    exact ⟨_, h'.symm⟩

theorem flatten_ends_with (term : Str) :
    ∀ (rs : List Str), rs ≠ [] → (∀ r ∈ rs, ∃ p, r = p ++ term) →
      ∃ p, rs.flatten = p ++ term := by
  intro rs
  induction rs with
  | nil => intro h _; exact absurd rfl h
  | cons r rest ih =>
    intro _ hall
    cases rest with
    | nil =>
      obtain ⟨p, hp⟩ := hall r (by simp)
      exact ⟨p, by simp [hp]⟩
    | cons r2 rs2 =>
      obtain ⟨p, hp⟩ := ih (by simp) (fun x hx => hall x (by simp [hx]))
      exact ⟨r ++ p, by rw [List.flatten_cons, hp, List.append_assoc]⟩

theorem write_ok_spec (st : TFState) (file : Option Str) (st' : TFState) (newContent : Str)
    (h : st.write file = .ok (st', newContent)) :
    ∃ d rendered, st.writeDialect file = .ok d ∧ writerows d st.data = .ok rendered ∧
      newContent = (if st.loaded then rendered else (file.getD []) ++ rendered) ∧
      st'.data = (if st.loaded then st.data else []) ∧
      st'.dialect = some (st.dialect.getD d) ∧
      st'.loaded = st.loaded ∧ st'.fileName = st.fileName := by
  unfold TFState.write at h
  cases hd : st.writeDialect file with
  | error e =>
    rw [hd] at h
    exact Except.noConfusion h
  | ok d =>
    rw [hd] at h
    replace h : ((writerows d st.data).bind fun rendered =>
        pure ({ st with data := if st.loaded then st.data else [],
                        dialect := some (st.dialect.getD d) },
          if st.loaded then rendered else (file.getD []) ++ rendered))
        = (Except.ok (st', newContent) : Except Err (TFState × Str)) := h
    cases hw : writerows d st.data with
    | error e =>
      rw [hw] at h
      exact Except.noConfusion h
    | ok rendered =>
      rw [hw] at h
      replace h : (Except.ok
          ({ st with data := if st.loaded then st.data else [],
                     dialect := some (st.dialect.getD d) },
            if st.loaded then rendered else (file.getD []) ++ rendered)
          : Except Err (TFState × Str))
          = Except.ok (st', newContent) := h
      rw [Except.ok.injEq, Prod.mk.injEq] at h
      refine ⟨d, rendered, rfl, hw, h.2.symm, ?_, ?_, ?_, ?_⟩ <;> rw [← h.1]

theorem format_ok_spec (st : TFState) (fmt : Fmt) (tz : Option Int) (s : Str)
    (h : st.format fmt tz = .ok s) :
    ∃ rows rs, st.format_data fmt (tz.getD 0) = .ok rows
      ∧ rows.mapM (writeRow (st.dialect.getD defaultDialect)) = .ok rs
      ∧ s = rs.flatten := by
  unfold TFState.format at h
  simp only [] at h
  cases hfd : st.format_data fmt (tz.getD 0) with
  | error e =>
    rw [hfd] at h
    exact Except.noConfusion h
  | ok rows =>
    rw [hfd] at h
    replace h : ((rows.mapM (writeRow (st.dialect.getD defaultDialect))).bind fun rs =>
        pure rs.flatten) = (Except.ok s : Except Err Str) := h
    cases hm : rows.mapM (writeRow (st.dialect.getD defaultDialect)) with
    | error e =>
      rw [hm] at h
      exact Except.noConfusion h
    | ok rs =>
      rw [hm] at h
      replace h : (Except.ok rs.flatten : Except Err Str) = Except.ok s := h
      rw [Except.ok.injEq] at h
      exact ⟨rows, rs, rfl, hm, h.symm⟩

/-! ## Lemmas: small inversions of `sniff`, `entryOfRecord` and `load` -/

theorem sniff_ok {s : Str} {d : Dialect} (h : sniff s = .ok d) : d = sniffedTab := by
  unfold sniff at h
  simp only [] at h
  split_ifs at h <;> first
    | exact Except.noConfusion h
    | (rw [Except.ok.injEq] at h; exact h.symm)

theorem load_ok_frame (st : TFState) (file : Option Str) (fmt : Fmt) (sysOff : Int)
    (st' : TFState) (h : st.load file fmt sysOff = .ok st') :
    st'.loaded = st.loaded ∧ st'.dialect = st.dialect ∧ st'.fileName = st.fileName := by
  unfold TFState.load at h
  cases file with
  | none => exact Except.noConfusion h
  | some content =>
    replace h : ((sniff (content.take 1024)).bind fun d =>
        ((parseRecords d content).mapM ((fun row =>
          match row with
          | [] => .error .emptyRow
          | f :: rest => do
              let pf ← strptime fmt f
              return { ts := epochOfPFields sysOff pf, rest := rest }) :
          List Str → Except Err Entry)).bind
          fun data => pure { st with data := data })
        = (Except.ok st' : Except Err TFState) := h
    cases hs : sniff (content.take 1024) with
    | error e =>
      rw [hs] at h
      exact Except.noConfusion h
    | ok d =>
      rw [hs] at h
      replace h : (((parseRecords d content).mapM ((fun row =>
          match row with
          | [] => .error .emptyRow
          | f :: rest => do
              let pf ← strptime fmt f
              return { ts := epochOfPFields sysOff pf, rest := rest }) :
          List Str → Except Err Entry)).bind
            fun data => pure { st with data := data })
          = (Except.ok st' : Except Err TFState) := h
      cases hm : (parseRecords d content).mapM ((fun row =>
          match row with
          | [] => .error .emptyRow
          | f :: rest => do
              let pf ← strptime fmt f
              return { ts := epochOfPFields sysOff pf, rest := rest }) :
          List Str → Except Err Entry) with
      | error e =>
        rw [hm] at h
        exact Except.noConfusion h
      | ok data =>
        rw [hm] at h
        replace h : (Except.ok { st with data := data } : Except Err TFState)
            = Except.ok st' := h
        rw [Except.ok.injEq] at h
        refine ⟨?_, ?_, ?_⟩ <;> rw [← h]

/-! ## Lemmas: rendered timestamps are plain and nonempty -/

theorem pyStrOfInt_ne_nil (i : Int) : pyStrOfInt i ≠ [] := by
  unfold pyStrOfInt
  split
  · simp
  · exact natDigits_ne_nil _

/-! ## The claims -/

/-- C9: `file_finder` returns the first path of the ordered candidate list that
the existence predicate accepts, and fails with the `FileNotFoundError` kind
when the list is empty or no candidate exists; only the boolean existence
predicate is consulted, never any content. -/
theorem C9_file_finder_first_hit (fsExists : Str → Bool) (ps : List Str) :
    file_finder fsExists ps = match ps.find? fsExists with
      | some p => .ok p
      | none => .error .fileNotFound := by
  induction ps with
  | nil => rfl
  | cons p rest ih =>
    by_cases h : fsExists p
    · simp [file_finder, List.find?, h]
    · simp only [file_finder, List.find?]
      rw [if_neg h, ih]
      simp [h]

/-- C4: the claim that `append(activity)` with the timestamp omitted stamps the
entry with the clock value at call time is false of the code: the Python
default `timestamp=round(time.time())` is evaluated once at import, so every
defaulted call appends the import-time clock value, which differs from the
call-time clock whenever the two clocks differ. -/
theorem C4_append_default_is_import_time (importTime now : Int) (st : TFState)
    (activity : Str) (h : now ≠ importTime) :
    (TFState.appendDefault importTime st activity).data.getLast?
        = some { ts := importTime, rest := [activity] } ∧
    ∀ e, (TFState.appendDefault importTime st activity).data.getLast? = some e →
      e.ts ≠ now := by
  have hl : (TFState.appendDefault importTime st activity).data.getLast?
      = some { ts := importTime, rest := [activity] } := by
    show (st.data ++ [({ ts := importTime, rest := [activity] } : Entry)]).getLast? = _
    rw [List.getLast?_concat]
  refine ⟨hl, ?_⟩
  intro e he
  rw [hl, Option.some.injEq] at he
  rw [← he]
  simp only []
  omega

theorem C4_append_default_is_import_time_witness :
    ((0 : Int) ≠ 1) ∧
    ((TFState.appendDefault 1 (TFState.init ['t']) ['a']).data.getLast?
        = some { ts := 1, rest := [['a']] } ∧
    ∀ e, (TFState.appendDefault 1 (TFState.init ['t']) ['a']).data.getLast? = some e →
      e.ts ≠ 0) :=
  ⟨by decide, C4_append_default_is_import_time 1 0 (TFState.init ['t']) ['a'] (by decide)⟩

/-- C8: in the scoped pattern, `__enter__` performs `read()` and `__exit__`
performs `write()` unconditionally: whenever the entering read succeeds, the
outcome of the whole scope is exactly the outcome of writing the body's final
state — also when the body raised (`bodyErr = some e`), in which case the write
still happens and the body's exception is propagated alongside. -/
theorem C8_scope_reads_then_always_writes (file : Option Str)
    (body : TFState → TFState × Option Err) (st st0 st1 : TFState) (be : Option Err)
    (hread : st.read file = .ok st0) (hbody : body st0 = (st1, be)) :
    runWith file body st = (st1.write file).map (fun r => (r.2, be)) := by
  unfold runWith
  rw [hread]
  show (match body st0 with
    | (st1, bodyErr) => (st1.write file).bind fun r => pure (r.2, bodyErr)) = _
  rw [hbody]
  show (st1.write file).bind (fun r => pure (r.2, be)) = _
  cases hw : st1.write file with
  | error e => rfl
  | ok r => rfl

theorem C8_scope_reads_then_always_writes_witness :
    ((TFState.init ['t']).read (some ['9', '\t', 'x', '\n'])
        = .ok ⟨['t'], [⟨9, [['x']]⟩], some sniffedTab, true⟩) ∧
    runWith (some ['9', '\t', 'x', '\n']) (fun s => (s, some Err.emptyRow))
        (TFState.init ['t'])
      = ((⟨['t'], [⟨9, [['x']]⟩], some sniffedTab, true⟩ : TFState).write
          (some ['9', '\t', 'x', '\n'])).map (fun r => (r.2, some Err.emptyRow)) :=
  ⟨by decide,
    C8_scope_reads_then_always_writes (some ['9', '\t', 'x', '\n']) _ _
      ⟨['t'], [⟨9, [['x']]⟩], some sniffedTab, true⟩ _ _ (by decide) rfl⟩

/-- C2 (amended): when `loaded` is false and `write()` succeeds, the new file
contents are exactly the previous contents followed by the rendered in-memory
rows, and `data` is cleared; the unamended claim is false because `write()` can
raise instead (see the counterexample: sniffing an existing empty file fails
before anything is written). -/
theorem C2_append_mode_write (st : TFState) (file : Option Str) (st' : TFState)
    (nc : Str) (hl : st.loaded = false) (h : st.write file = .ok (st', nc)) :
    ∃ d rendered, st.writeDialect file = .ok d ∧ writerows d st.data = .ok rendered ∧
      nc = (file.getD []) ++ rendered ∧ st'.data = [] ∧ st'.loaded = false ∧
      st'.fileName = st.fileName := by
  obtain ⟨d, rendered, hd, hw, hnc, hdata, _, hload, hfn⟩ := write_ok_spec st file st' nc h
  rw [hl, if_neg (by decide)] at hnc hdata
  exact ⟨d, rendered, hd, hw, hnc, hdata, by rw [hload, hl], hfn⟩

theorem C2_append_mode_write_witness :
    ((⟨['t'], [⟨9, [['x']]⟩], none, false⟩ : TFState).loaded = false) ∧
    (TFState.write ⟨['t'], [⟨9, [['x']]⟩], none, false⟩ (some ['o', '\t', 'p', '\n'])
      = .ok (⟨['t'], [], some sniffedTab, false⟩,
             ['o', '\t', 'p', '\n', '9', '\t', 'x', '\r', '\n'])) ∧
    ∃ d rendered,
      (⟨['t'], [⟨9, [['x']]⟩], none, false⟩ : TFState).writeDialect
          (some ['o', '\t', 'p', '\n']) = .ok d ∧
      writerows d [⟨9, [['x']]⟩] = .ok rendered ∧
      (['o', '\t', 'p', '\n', '9', '\t', 'x', '\r', '\n'] : Str)
        = ((some ['o', '\t', 'p', '\n'] : Option Str).getD []) ++ rendered ∧
      (⟨['t'], [], some sniffedTab, false⟩ : TFState).data = [] ∧
      (⟨['t'], [], some sniffedTab, false⟩ : TFState).loaded = false ∧
      (⟨['t'], [], some sniffedTab, false⟩ : TFState).fileName
        = (⟨['t'], [⟨9, [['x']]⟩], none, false⟩ : TFState).fileName :=
  ⟨rfl, by decide, C2_append_mode_write _ _ _ _ rfl (by decide)⟩

theorem C2_append_mode_write_counterexample :
    ((⟨['t'], [⟨0, [['a']]⟩], none, false⟩ : TFState).loaded = false) ∧
    TFState.write ⟨['t'], [⟨0, [['a']]⟩], none, false⟩ (some ([] : Str))
      = .error .sniffFailed := by decide

/-- C3 (amended): when `loaded` is true and `write()` succeeds, the new file
contents are exactly the rendering of the current `data` under the resolved
dialect (the prior contents are discarded) and `data` is kept; the unamended
claim is false because the output is not independent of the prior file
contents: with no dialect cached, the dialect — and with it the line
terminator of the written bytes — is sniffed from those prior contents (see
the counterexample), and `write()` can also raise on a sniff failure. -/
theorem C3_loaded_mode_write (st : TFState) (file : Option Str) (st' : TFState)
    (nc : Str) (hl : st.loaded = true) (h : st.write file = .ok (st', nc)) :
    ∃ d, st.writeDialect file = .ok d ∧ writerows d st.data = .ok nc ∧
      st'.data = st.data ∧ st'.loaded = true ∧ st'.fileName = st.fileName := by
  obtain ⟨d, rendered, hd, hw, hnc, hdata, _, hload, hfn⟩ := write_ok_spec st file st' nc h
  rw [hl, if_pos rfl] at hnc hdata
  rw [hnc]
  exact ⟨d, hd, hw, hdata, by rw [hload, hl], hfn⟩

theorem C3_loaded_mode_write_witness :
    ((⟨['t'], [⟨9, [['x']]⟩], none, true⟩ : TFState).loaded = true) ∧
    (TFState.write ⟨['t'], [⟨9, [['x']]⟩], none, true⟩ none
      = .ok (⟨['t'], [⟨9, [['x']]⟩], some defaultDialect, true⟩, ['9', '\t', 'x', '\n'])) ∧
    ∃ d, (⟨['t'], [⟨9, [['x']]⟩], none, true⟩ : TFState).writeDialect none = .ok d ∧
      writerows d [⟨9, [['x']]⟩] = .ok ['9', '\t', 'x', '\n'] ∧
      (⟨['t'], [⟨9, [['x']]⟩], some defaultDialect, true⟩ : TFState).data = [⟨9, [['x']]⟩] ∧
      (⟨['t'], [⟨9, [['x']]⟩], some defaultDialect, true⟩ : TFState).loaded = true ∧
      (⟨['t'], [⟨9, [['x']]⟩], some defaultDialect, true⟩ : TFState).fileName
        = (⟨['t'], [⟨9, [['x']]⟩], none, true⟩ : TFState).fileName :=
  ⟨rfl, by decide, C3_loaded_mode_write _ _ _ _ rfl (by decide)⟩

theorem C3_loaded_mode_write_counterexample :
    ((⟨['t'], [⟨9, [['x']]⟩], none, true⟩ : TFState).loaded = true) ∧
    (TFState.write ⟨['t'], [⟨9, [['x']]⟩], none, true⟩ (some ['o', '\t', 'p', '\n'])
      = .ok (⟨['t'], [⟨9, [['x']]⟩], some sniffedTab, true⟩, ['9', '\t', 'x', '\r', '\n'])) ∧
    (TFState.write ⟨['t'], [⟨9, [['x']]⟩], none, true⟩ none
      = .ok (⟨['t'], [⟨9, [['x']]⟩], some defaultDialect, true⟩, ['9', '\t', 'x', '\n'])) ∧
    (['9', '\t', 'x', '\r', '\n'] : Str) ≠ ['9', '\t', 'x', '\n'] := by decide

/-- C1 (counterexample): the unamended round trip fails on the empty sequence —
writing no entries in loaded mode succeeds and leaves a zero-byte file, on
which a fresh `read()` raises from the dialect sniffer instead of returning the
empty sequence. -/
theorem C1_roundtrip_counterexample :
    (TFState.write ⟨['t'], [], none, true⟩ none
      = .ok (⟨['t'], [], some defaultDialect, true⟩, ([] : Str))) ∧
    TFState.read (TFState.init ['t']) (some ([] : Str)) = .error .sniffFailed := by decide

/-- C7: whenever `format()` succeeds, its output is empty when `data` is empty
and ends with the active dialect's line terminator when `data` is non-empty
(`format` is a pure projection of the state in this embedding: it returns only
a string and no updated state). -/
theorem C7_format_terminator (st : TFState) (fmt : Fmt) (tz : Option Int) (s : Str)
    (h : st.format fmt tz = .ok s) :
    (st.data = [] → s = []) ∧
    (st.data ≠ [] → ∃ p, s = p ++ (st.dialect.getD defaultDialect).lineterminator) := by
  obtain ⟨rows, rs, hfd, hm, rfl⟩ := format_ok_spec st fmt tz s h
  have hfd' : st.data.mapM ((fun e => do
      let dt ← fromtimestamp e.ts (tz.getD 0)
      return strftime dt fmt :: e.rest) : Entry → Except Err (List Str)) = .ok rows := hfd
  constructor
  · intro hdata
    rw [hdata] at hfd'
    replace hfd' : (Except.ok [] : Except Err (List (List Str))) = Except.ok rows := hfd'
    rw [Except.ok.injEq] at hfd'
    rw [← hfd'] at hm
    replace hm : (Except.ok [] : Except Err (List Str)) = Except.ok rs := hm
    rw [Except.ok.injEq] at hm
    rw [← hm]
    rfl
  · intro hdata
    have hlen1 := mapM_ok_length _ st.data rows hfd'
    have hlen2 := mapM_ok_length _ rows rs hm
    have hrs : rs ≠ [] := by
      intro hnil
      rw [hnil, List.length_nil] at hlen2
      have : st.data.length = 0 := by omega
      exact hdata (List.length_eq_zero.mp this)
    refine flatten_ends_with _ rs hrs ?_
    intro r hr
    obtain ⟨row, hrow⟩ := mapM_ok_mem _ rows rs hm r hr
    exact writeRow_ok_suffix hrow

theorem C7_format_terminator_witness :
    (TFState.format (TFState.init ['t']) defaultHumanFmt none = .ok ([] : Str)) ∧
    (((TFState.init ['t']).data = [] → ([] : Str) = []) ∧
     ((TFState.init ['t']).data ≠ [] → ∃ p, ([] : Str)
        = p ++ ((TFState.init ['t']).dialect.getD defaultDialect).lineterminator)) :=
  ⟨by decide, C7_format_terminator (TFState.init ['t']) defaultHumanFmt none [] (by decide)⟩

/-- C10: a successful `load()` mutates only `data`: on an instance fresh from
the constructor, `loaded` stays false and `dialect` stays unset (the sniffed
dialect is not cached), so a later successful `write()` runs in append mode —
the new contents are the previous file contents followed by the rendered rows,
and `data` is cleared afterwards. -/
theorem C10_load_keeps_append_mode (fn : Str) (file : Option Str) (fmt : Fmt)
    (sysOff : Int) (st' : TFState)
    (hload : (TFState.init fn).load file fmt sysOff = .ok st') :
    st'.loaded = false ∧ st'.dialect = none ∧ st'.fileName = fn ∧
    ∀ (file2 : Option Str) (st'' : TFState) (nc : Str),
      st'.write file2 = .ok (st'', nc) →
      ∃ d rendered, writerows d st'.data = .ok rendered ∧
        nc = (file2.getD []) ++ rendered ∧ st''.data = [] := by
  obtain ⟨hld, hdia, hfn⟩ := load_ok_frame _ _ _ _ _ hload
  have hld' : st'.loaded = false := hld.trans rfl
  have hdia' : st'.dialect = none := hdia.trans rfl
  refine ⟨hld', hdia', hfn.trans rfl, ?_⟩
  intro file2 st'' nc hw
  obtain ⟨d, rendered, _, hwr, hnc, hdata, _, _, _⟩ := write_ok_spec st' file2 st'' nc hw
  rw [hld', if_neg (by decide)] at hnc hdata
  exact ⟨d, rendered, hwr, hnc, hdata⟩

/-- C1 (amended): entries persisted by a loaded-mode `write()` on an instance
with no cached dialect, to a target path that does not yet exist (so the
default dialect with its `os.linesep` terminator is used, nothing is sniffed
from prior contents), round-trip exactly through a fresh `read()` of the
written contents — provided there is at least one entry, every rendered field
is plain, every entry carries the same number of activity fields (at least
one, so every written line has the same positive tab count and the sniffer
settles on the tab), no activity field of the first entry begins with a space
(so the sniffed `skipinitialspace` is off and the reader strips nothing), and
the written contents fit in the sniffer's 1024-character sample (so no line
is truncated mid-way); the unamended claim fails already on the empty
sequence (see the counterexample). -/
theorem C1_write_read_roundtrip (fn : Str) (entries : List Entry)
    (st' : TFState) (nc : Str)
    (h : TFState.write ⟨fn, entries, none, true⟩ none = .ok (st', nc))
    (e0 : Entry) (erest : List Entry) (hent : entries = e0 :: erest)
    (hplain : ∀ e ∈ entries, ∀ f ∈ entryFields e, plainField f = true)
    (hrest0 : e0.rest ≠ [])
    (huni : ∀ e ∈ entries, e.rest.length = e0.rest.length)
    (hsp0 : ∀ f ∈ e0.rest, startsWithSpaceB f = false)
    (hsize : nc.length ≤ 1024) :
    TFState.read (TFState.init fn) (some nc)
      = .ok ⟨fn, entries, some sniffedTab, true⟩ := by
  subst hent
  obtain ⟨d, rendered, hd, hw, hnc, _, _, _, _⟩ := write_ok_spec _ _ _ _ h
  have hnc' : nc = rendered := hnc.trans (if_pos rfl)
  replace hw : writerows d (e0 :: erest) = .ok rendered := hw
  have hdor : d = defaultDialect ∨ d = sniffedTab := by
    replace hd : (Except.ok defaultDialect : Except Err Dialect) = .ok d := hd
    rw [Except.ok.injEq] at hd
    exact Or.inl hd.symm
  have hterm : d.lineterminator = ['\n'] ∨ d.lineterminator = ['\r', '\n'] := by
    rcases hdor with rfl | rfl
    · exact Or.inl rfl
    · exact Or.inr rfl
  have hwp := writerows_plain hdor hplain
  rw [hw, Except.ok.injEq] at hwp
  have hncR : nc = (((e0 :: erest).map entryFields).map
      (fun r => joinFields r ++ d.lineterminator)).flatten := by
    rw [hnc', hwp, List.map_map]
    rfl
  have hrows : ∀ r ∈ (e0 :: erest).map entryFields, ∀ f ∈ r, plainField f = true := by
    intro r hr
    rw [List.mem_map] at hr
    obtain ⟨e, he, rfl⟩ := hr
    exact hplain e he
  have hsn : sniff (nc.take 1024) = .ok sniffedTab := by
    rw [List.take_of_length_le hsize, hncR]
    refine sniff_rendered d.lineterminator hterm ((e0 :: erest).map entryFields)
      (entryFields e0) (erest.map entryFields) (by rw [List.map_cons])
      (e0.rest.length + 1) ?_ ?_ hrows (fun f hf => hsp0 f hf)
    · have : 0 < e0.rest.length := List.length_pos.mpr hrest0
      omega
    · intro r hr
      rw [List.mem_map] at hr
      obtain ⟨e, he, rfl⟩ := hr
      show (pyStrOfInt e.ts :: e.rest).length = e0.rest.length + 1
      rw [List.length_cons, huni e he]
  have hparse : parseRecords sniffedTab nc = (e0 :: erest).map entryFields := by
    show parseAux '\t' '"' nc false [] [] false = _
    rw [hncR]
    refine parseAux_rows d.lineterminator hterm ((e0 :: erest).map entryFields) ?_
    intro r hr
    rw [List.mem_map] at hr
    obtain ⟨e, he, rfl⟩ := hr
    refine ⟨by simp [entryFields], ?_, hplain e he⟩
    show (pyStrOfInt e.ts :: e.rest).headI ≠ []
    simp only [List.headI]
    exact pyStrOfInt_ne_nil e.ts
  show (Except.bind (sniff (nc.take 1024)) fun d0 =>
    Except.bind ((parseRecords d0 nc).mapM TFState.entryOfRecord) fun data =>
      pure ({ fileName := fn, data := data, dialect := some d0,
              loaded := true } : TFState))
    = Except.ok ⟨fn, e0 :: erest, some sniffedTab, true⟩
  rw [hsn]
  show (Except.bind ((parseRecords sniffedTab nc).mapM TFState.entryOfRecord) fun data =>
      pure ({ fileName := fn, data := data, dialect := some sniffedTab,
              loaded := true } : TFState))
    = Except.ok ⟨fn, e0 :: erest, some sniffedTab, true⟩
  rw [hparse, mapM_entryOfRecord]
  rfl

theorem C1_write_read_roundtrip_witness :
    (TFState.write ⟨['t'], [⟨9, [['x']]⟩], none, true⟩ none
      = .ok (⟨['t'], [⟨9, [['x']]⟩], some defaultDialect, true⟩, ['9', '\t', 'x', '\n'])) ∧
    TFState.read (TFState.init ['t']) (some ['9', '\t', 'x', '\n'])
      = .ok ⟨['t'], [⟨9, [['x']]⟩], some sniffedTab, true⟩ :=
  ⟨by decide,
    C1_write_read_roundtrip ['t'] [⟨9, [['x']]⟩]
      ⟨['t'], [⟨9, [['x']]⟩], some defaultDialect, true⟩ ['9', '\t', 'x', '\n'] (by decide)
      ⟨9, [['x']]⟩ [] rfl (by decide) (by decide) (by decide) (by decide) (by decide)⟩

theorem C10_load_keeps_append_mode_witness :
    ((TFState.init ['t']).load
        (some ['1', '9', '7', '0', '-', '0', '1', '-', '0', '1', ' ', '0', '0', ':', '0',
          '0', ':', '0', '0', ' ', '+', '0', '0', '0', '0', '\t', 'x', '\n'])
        defaultHumanFmt 0
      = .ok ⟨['t'], [⟨0, [['x']]⟩], none, false⟩) ∧
    ((⟨['t'], [⟨0, [['x']]⟩], none, false⟩ : TFState).loaded = false ∧
     (⟨['t'], [⟨0, [['x']]⟩], none, false⟩ : TFState).dialect = none ∧
     (⟨['t'], [⟨0, [['x']]⟩], none, false⟩ : TFState).fileName = ['t'] ∧
     ∀ (file2 : Option Str) (st'' : TFState) (nc : Str),
       (⟨['t'], [⟨0, [['x']]⟩], none, false⟩ : TFState).write file2 = .ok (st'', nc) →
       ∃ d rendered,
         writerows d (⟨['t'], [⟨0, [['x']]⟩], none, false⟩ : TFState).data = .ok rendered ∧
         nc = (file2.getD []) ++ rendered ∧ st''.data = []) :=
  ⟨by decide,
    C10_load_keeps_append_mode ['t']
      (some ['1', '9', '7', '0', '-', '0', '1', '-', '0', '1', ' ', '0', '0', ':', '0',
        '0', ':', '0', '0', ' ', '+', '0', '0', '0', '0', '\t', 'x', '\n'])
      defaultHumanFmt 0 ⟨['t'], [⟨0, [['x']]⟩], none, false⟩ (by decide)⟩

end TT
